import Mathlib

/-!
Verification of the persistent-data B-tree core and its damage-tolerant
depth-first traversal, as described in the specification of the
thin-provisioning-tools metadata engine.

The repository's own sources available here are the unit tests
(`unit-tests/btree_damage_visitor_t.cc`); the B-tree implementation itself
(`persistent-data/data-structures/btree.h`, `btree_damage_visitor.h`,
`persistent-data/range.h`) is not part of the source tree, so the
definitions below model those missing parts from the specification
(sections 3, 4.2, 4.3, 4.4), instantiated — like the tests — for a
single-level tree (`btree<1, thing_traits>`), whose keys are 64-bit
integers and whose nesting level is always 0.
-/

namespace PDBtree

/-- The test value type `thing` from `btree_damage_visitor_t.cc`: a pair of a
`uint32_t` and a `uint64_t`. -/
structure thing where
  x : Nat
  y : Nat
deriving DecidableEq, Repr

/-- `thing(i, i + 1234)` as built by `insert_values`, with the fields reduced
modulo their machine widths (`x` is a `uint32_t`, `y` a `uint64_t`). -/
def mkThing (i : Nat) : thing :=
  ⟨i % 2 ^ 32, (i + 1234) % 2 ^ 64⟩

/-- An in-memory B-tree node (single level, level 0): internal nodes hold an
ordered sequence of (separator key, child) pairs, leaves hold the ordered
(key, value) entries.  Modelled from the spec: §3 "Node" — `entries`: an
ordered sequence of (key, value) pairs; internal nodes hold child block
addresses as values, leaf nodes hold user values.  Children are held
structurally rather than through block addresses; corruption is modelled
separately by `dnode`. -/
inductive bnode (V : Type) : Type where
  | leaf (es : List (Nat × V))
  | internal (cs : List (Nat × bnode V))

/-- The decoded view of a tree as the damage-tolerant traversal sees it: every
block either decodes to a node or is `damaged` (unreadable, checksum mismatch
or bad header).  Modelled from the spec: §4.1 — decode failures must be
treated by the traversal engine as "this node is unreadable". -/
inductive dnode (V : Type) : Type where
  | leaf (es : List (Nat × V))
  | internal (cs : List (Nat × dnode V))
  | damaged

mutual

/-- A fully readable tree, viewed as a decoded tree with no damaged node. -/
def embed {V : Type} : bnode V → dnode V
  | .leaf es => .leaf es
  | .internal cs => .internal (embedL cs)

/-- `embed` mapped over a child list. -/
def embedL {V : Type} : List (Nat × bnode V) → List (Nat × dnode V)
  | [] => []
  | (k, c) :: rest => (k, embed c) :: embedL rest

end

mutual

/-- The ordered (key, value) entries stored in a tree, in depth-first
ascending-key order (the order §4.3 visits them in). -/
def entryList {V : Type} : bnode V → List (Nat × V)
  | .leaf es => es
  | .internal cs => entryListL cs

/-- `entryList` concatenated over a child list. -/
def entryListL {V : Type} : List (Nat × bnode V) → List (Nat × V)
  | [] => []
  | (_, c) :: rest => entryList c ++ entryListL rest

end

/-- The keys stored in a tree, in depth-first order. -/
def keyList {V : Type} (t : bnode V) : List Nat :=
  (entryList t).map Prod.fst

/-- Number of entries of a node (`get_nr_entries`): entries for a leaf,
children for an internal node. -/
def nodeSize {V : Type} : bnode V → Nat
  | .leaf es => es.length
  | .internal cs => cs.length

/-- `range<uint64_t>` from `persistent-data/range.h` (not under the available
sources; its use in the tests constructs values from optional begin/end).
Modelled from the spec: §3 "Damage record" — `key_range` is a half-open
`[begin, end)` interval of the missing key space, either end may be absent
("unbounded"). -/
structure range64 where
  begin_ : Option Nat
  end_ : Option Nat
deriving DecidableEq, Repr

/-- `btree_detail::damage` — §3 "Damage record": `{level, key_range,
description}`. -/
structure damage where
  level : Nat
  lost_keys : range64
  desc : String
deriving DecidableEq, Repr

/-- Equality on damage records as used by the tests' `expect_damage`
(`damage::operator==` is not under the available sources).  Modelled from the
spec: §6 — the `description` field is "a free-text diagnostic string, not
machine-parsed"; the tests compare emitted records against a record with the
placeholder description `"foo"`, so equality considers only the level and the
key range. -/
def damageEq (d1 d2 : damage) : Bool :=
  d1.level == d2.level && d1.lost_keys == d2.lost_keys

/-- The description string our modelled visitor attaches to damage reports. -/
def lostKeysDesc : String := "lost keys"

mutual

/-- Damage-tolerant depth-first traversal of a (single-level) decoded tree.
Modelled from the spec: §4.3/§4.4 (`btree_damage_visitor` is not under the
available sources) — `lo` is the node's inherited lower-bound key (`none` for
the first node of the level), `hi` the inherited key of the node's next
sibling at the same depth (`none` if it is the last).  A damaged node yields
one damage record `{level = 0, [lo, hi)}` and is not descended into; a leaf
reports its values in ascending key order; an internal node visits its
children in ascending key order, the first child keeping `lo` and each later
child inheriting its own separator key. -/
def walk {V : Type} (lo hi : Option Nat) : dnode V → List V × List damage
  | .damaged => ([], [⟨0, ⟨lo, hi⟩, lostKeysDesc⟩])
  | .leaf es => (es.map Prod.snd, [])
  | .internal cs => walkL lo hi cs

/-- Traversal of a child list: the bound passed to each child is the separator
key of the next list element (which is also the next element's inherited
key), or the parent's own upper bound for the last child. -/
def walkL {V : Type} : Option Nat → Option Nat → List (Nat × dnode V) → List V × List damage
  | _, _, [] => ([], [])
  | lo, hi, (_, c) :: rest =>
      let bound : Option Nat := match rest with | [] => hi | (k, _) :: _ => some k
      let p := walk lo bound c
      let q := walkL bound hi rest
      (p.1 ++ q.1, p.2 ++ q.2)

end

/-- `btree<1, …>::visit_depth_first` through a `btree_damage_visitor`: the
whole-tree traversal starts at the root with both bounds unbounded, and
returns the value-consumer calls and damage-consumer calls in order. -/
def visitDamageTolerant {V : Type} (t : dnode V) : List V × List damage :=
  walk none none t

/-! ## The block store and node decoding

Modelled from the spec: the block store and its checksum validation are
external collaborators (§2, §6) and `transaction_manager`/block write-back is
not under the available sources.  A block is either unreadable/trashed
(`none`) or holds a raw node image together with a `stamped` flag recording
whether its checksum and block number have been written back
(`run()`'s comment in the tests: "We must commit before we do the test to
ensure all the block numbers and checksums are written to the btree nodes").
Decoding fails — the traversal sees `damaged` — on an unreadable block, an
unstamped block (checksum mismatch), or a bad header (entry count exceeding
the capacity `max_entries`). -/

/-- A node's on-disk image: a leaf's entries, or an internal node's
(key, child block address) entries. -/
inductive rawNode (V : Type) : Type where
  | leaf (es : List (Nat × V))
  | internal (cs : List (Nat × Nat))

/-- The block store: block address → `none` (unreadable) or a raw node image
plus the flag saying whether checksum/location were stamped by write-back. -/
def store (V : Type) : Type := Nat → Option (Bool × rawNode V)

/-- A block read succeeds only if the block is present and its checksum has
been stamped (§2: per-block checksum validation on read). -/
def readBlock {V : Type} (s : store V) (a : Nat) : Option (rawNode V) :=
  match s a with
  | some (true, r) => some r
  | _ => none

/-- Commit / write-back: stamps every block's checksum (the tests' `commit()`
before `run()`). -/
def commitStore {V : Type} (s : store V) : store V :=
  fun a => (s a).map (fun p => (true, p.2))

/-- Decode the tree rooted at block `a`: an unreadable block, or a node whose
entry count exceeds `max_entries` (bad header), decodes to `damaged`; an
internal node's children are decoded recursively.  `fuel` bounds the
recursion depth (the on-disk structure is finite; every theorem supplies
enough fuel). -/
def decodeTree {V : Type} (maxEntries : Nat) (s : store V) : Nat → Nat → dnode V
  | 0, _ => .damaged
  | fuel + 1, a =>
      match readBlock s a with
      | none => .damaged
      | some (.leaf es) =>
          if es.length ≤ maxEntries then .leaf es else .damaged
      | some (.internal cs) =>
          if cs.length ≤ maxEntries then
            .internal (cs.map (fun p => (p.1, decodeTree maxEntries s fuel p.2)))
          else .damaged

/-- The root block "is corrupted": reading it fails (trashed block, or
checksum not valid) or its header is invalid (entry count exceeding the
capacity for the block's value size, §4.1). -/
def blockCorrupt {V : Type} (maxEntries : Nat) (s : store V) (a : Nat) : Prop :=
  match readBlock s a with
  | none => True
  | some (.leaf es) => maxEntries < es.length
  | some (.internal cs) => maxEntries < cs.length

/-! ## Structural well-formedness

Modelled from the spec: §3 "Node" — entries with keys strictly ascending and
unique, length at most `max_entries`; every non-root node holds at least
`⌈max_entries / 2⌉ = (max_entries + 1) / 2` entries; internal nodes' entry
keys are the lower bounds under which their children are reached (§4.3's
inherited keys), i.e. each separator equals the first key of its child's
subtree. -/

/-- Keys strictly ascending (adjacent comparison). -/
def sortedKeysB : List Nat → Bool
  | [] => true
  | [_] => true
  | a :: b :: rest => decide (a < b) && sortedKeysB (b :: rest)

/-- All listed keys below a bound. -/
def allLtB (l : List Nat) (b : Nat) : Bool :=
  l.all (fun a => decide (a < b))

/-- Each child's separator key is the first key of its subtree. -/
def tagsB {V : Type} (cs : List (Nat × bnode V)) : Bool :=
  cs.all (fun p => (keyList p.2).head? == some p.1)

/-- Every key of each child's subtree is below the next child's separator. -/
def sepChainB {V : Type} : List (Nat × bnode V) → Bool
  | [] => true
  | [_] => true
  | p :: q :: rest => allLtB (keyList p.2) q.1 && sepChainB (q :: rest)

/-- Is this node a leaf? -/
def isLeafB {V : Type} : bnode V → Bool
  | .leaf _ => true
  | .internal _ => false

mutual

/-- Height of a subtree: 0 for a leaf, one more than its children for an
internal node (a well-formed tree is uniformly deep, so any child
represents the node's depth below it). -/
def heightB {V : Type} : bnode V → Nat
  | .leaf _ => 0
  | .internal cs => 1 + heightBL cs

/-- Height of a child list: the height of its first child. -/
def heightBL {V : Type} : List (Nat × bnode V) → Nat
  | [] => 0
  | (_, c) :: _ => heightB c

end

/-- All listed subtrees have one height (uniform depth, which also makes
sibling nodes share a kind: leaves are exactly the height-0 nodes). -/
def heightsB {V : Type} (cs : List (Nat × bnode V)) : Bool :=
  cs.all (fun q => heightB q.2 == heightBL cs)

mutual

/-- Well-formedness of a node holding at least `lb` entries: entry count in
`[lb, m]`, keys strictly ascending, children (recursively) well-formed
non-root nodes with correct separator keys and non-overlapping ascending key
ranges. -/
def wfB {V : Type} (m lb : Nat) : bnode V → Bool
  | .leaf es =>
      decide (lb ≤ es.length) && decide (es.length ≤ m) &&
        sortedKeysB (es.map Prod.fst)
  | .internal cs =>
      decide (lb ≤ cs.length) && decide (cs.length ≤ m) &&
        decide (1 ≤ cs.length) && wfL m cs && tagsB cs && sepChainB cs &&
        heightsB cs

/-- All children well-formed as non-root nodes (occupancy at least
`⌈m/2⌉`). -/
def wfL {V : Type} (m : Nat) : List (Nat × bnode V) → Bool
  | [] => true
  | (_, c) :: rest => wfB m ((m + 1) / 2) c && wfL m rest

end

/-- Well-formedness of a whole tree: the root is exempt from the occupancy
minimum (an empty root leaf is a valid empty tree); an internal root has at
least two children (a single-child root is collapsed by `erase`). -/
def wfRoot {V : Type} (m : Nat) : bnode V → Bool
  | .leaf es => wfB m 0 (.leaf es)
  | .internal cs => wfB m 2 (.internal cs)

mutual

/-- `P` holds of this node and of every node below it. -/
def allNodes {V : Type} (P : bnode V → Prop) : bnode V → Prop
  | .leaf es => P (.leaf es)
  | .internal cs => P (.internal cs) ∧ allNodesL P cs

/-- `allNodes` over a child list. -/
def allNodesL {V : Type} (P : bnode V → Prop) : List (Nat × bnode V) → Prop
  | [] => True
  | (_, c) :: rest => allNodes P c ∧ allNodesL P rest

end

/-- Consecutive sibling subtrees hold non-overlapping, ascending key ranges:
every key of a child is below every key of the next child. -/
def sibSpansOrdered {V : Type} : bnode V → Prop
  | .leaf _ => True
  | .internal cs =>
      cs.Chain' (fun p q => ∀ a ∈ keyList p.2, ∀ b ∈ keyList q.2, a < b)

/-! ## Paths and single-node corruption

A path is the list of child indices leading from the root to a node; trashing
the block of the node at a path turns the decoded view of that whole subtree
into `damaged` (the tests' `trash_block` on a node found by `btree_layout`). -/

mutual

/-- The decoded view of a tree after trashing the block of the node at a
path: that node reads as `damaged`, everything else decodes intact. -/
def damageAt {V : Type} : List Nat → bnode V → dnode V
  | [], _ => .damaged
  | _ :: _, .leaf es => .leaf es
  | i :: p, .internal cs => .internal (damageAtL i p cs)

/-- `damageAt` inside the `i`-th element of a child list. -/
def damageAtL {V : Type} : Nat → List Nat → List (Nat × bnode V) → List (Nat × dnode V)
  | _, _, [] => []
  | 0, p, (k, c) :: rest => (k, damageAt p c) :: embedL rest
  | j + 1, p, (k, c) :: rest => (k, embed c) :: damageAtL j p rest

end

mutual

/-- The path denotes a node of the tree. -/
def validPathB {V : Type} : List Nat → bnode V → Bool
  | [], _ => true
  | _ :: _, .leaf _ => false
  | i :: p, .internal cs => validPathL i p cs

/-- `validPathB` at the `i`-th element of a child list. -/
def validPathL {V : Type} : Nat → List Nat → List (Nat × bnode V) → Bool
  | _, _, [] => false
  | 0, p, (_, c) :: _ => validPathB p c
  | j + 1, p, (_, c) :: rest => validPathL j p rest

end

mutual

/-- The path denotes a leaf of the tree. -/
def leafPathB {V : Type} : List Nat → bnode V → Bool
  | [], .leaf _ => true
  | [], .internal _ => false
  | _ :: _, .leaf _ => false
  | i :: p, .internal cs => leafPathL i p cs

/-- `leafPathB` at the `i`-th element of a child list. -/
def leafPathL {V : Type} : Nat → List Nat → List (Nat × bnode V) → Bool
  | _, _, [] => false
  | 0, p, (_, c) :: _ => leafPathB p c
  | j + 1, p, (_, c) :: rest => leafPathL j p rest

end

mutual

/-- The entries stored strictly before the subtree at a path (in key
order). -/
def entBefore {V : Type} : List Nat → bnode V → List (Nat × V)
  | [], _ => []
  | _ :: _, .leaf _ => []
  | i :: p, .internal cs => entBeforeL i p cs

/-- `entBefore` at the `i`-th element of a child list. -/
def entBeforeL {V : Type} : Nat → List Nat → List (Nat × bnode V) → List (Nat × V)
  | _, _, [] => []
  | 0, p, (_, c) :: _ => entBefore p c
  | j + 1, p, (_, c) :: rest => entryList c ++ entBeforeL j p rest

end

mutual

/-- The entries stored strictly after the subtree at a path (in key
order). -/
def entAfter {V : Type} : List Nat → bnode V → List (Nat × V)
  | [], _ => []
  | _ :: _, .leaf _ => []
  | i :: p, .internal cs => entAfterL i p cs

/-- `entAfter` at the `i`-th element of a child list. -/
def entAfterL {V : Type} : Nat → List Nat → List (Nat × bnode V) → List (Nat × V)
  | _, _, [] => []
  | 0, p, (_, c) :: rest => entAfter p c ++ entryListL rest
  | j + 1, p, (_, c) :: rest => entAfterL j p rest

end

mutual

/-- The entries stored in the subtree at a path. -/
def subEntries {V : Type} : List Nat → bnode V → List (Nat × V)
  | [], t => entryList t
  | _ :: _, .leaf _ => []
  | i :: p, .internal cs => subEntriesL i p cs

/-- `subEntries` at the `i`-th element of a child list. -/
def subEntriesL {V : Type} : Nat → List Nat → List (Nat × bnode V) → List (Nat × V)
  | _, _, [] => []
  | 0, p, (_, c) :: _ => subEntries p c
  | j + 1, p, (_, c) :: rest => subEntriesL j p rest

end

/-- The lower end of a damage report: the traversal bound `lo` inherited into
the damaged node if nothing preceded it, otherwise — given tight separator
keys — the first key stored below the damaged node. -/
def dmgLo {V : Type} (lo : Option Nat) (before sub : List (Nat × V)) : Option Nat :=
  if before.isEmpty then lo else (sub.map Prod.fst).head?

/-- The upper end of a damage report: the bound `hi` inherited into the
damaged node if nothing follows it, otherwise the first key stored after the
damaged subtree. -/
def dmgHi {V : Type} (hi : Option Nat) (after : List (Nat × V)) : Option Nat :=
  if after.isEmpty then hi else (after.map Prod.fst).head?

/-- The bound `walkL` hands to the head of a child list whose tail is
`rest`. -/
def nextBound {V : Type} (hi : Option Nat) : List (Nat × dnode V) → Option Nat
  | [] => hi
  | (k, _) :: _ => some k

/-! ## Traversal of an undamaged tree -/

/-! ## The mutating operations

Modelled from the spec: §4.2 — `btree<…>::insert`, `::remove` and `::lookup`
are not under the available sources; lookup descends by the rightmost
separator at most the target, insert splits an overfull node at the midpoint
(recursively, creating a new root when the old root splits), erase repairs an
underfull non-root node by redistribution from an adjacent sibling or, when
the sibling is also at the minimum, by merging with it; the root is exempt
and is collapsed into its single child when one remains. -/

/-- Sorted insertion into an entry run, replacing an existing binding of the
same key (last write wins). -/
def insEntry {V : Type} (k : Nat) (v : V) : List (Nat × V) → List (Nat × V)
  | [] => [(k, v)]
  | (k', v') :: rest =>
      if k < k' then (k, v) :: (k', v') :: rest
      else if k = k' then (k, v) :: rest
      else (k', v') :: insEntry k v rest

/-- Remove the binding of a key from an entry run. -/
def rmEntry {V : Type} (k : Nat) : List (Nat × V) → List (Nat × V)
  | [] => []
  | (k', v') :: rest => if k = k' then rest else (k', v') :: rmEntry k rest

/-- Exact-key search in an entry run. -/
def findEntry {V : Type} (k : Nat) : List (Nat × V) → Option V
  | [] => none
  | (k', v) :: rest => if k = k' then some v else findEntry k rest

/-- `key_at(0)` of a node: the key of its first entry (0 for an empty root
leaf, which never needs a separator). -/
def lowKey {V : Type} : bnode V → Nat
  | .leaf es => (es.map Prod.fst).headD 0
  | .internal cs => (cs.map Prod.fst).headD 0

/-- Pair a node with the separator key under which its parent reaches it:
its first key (§3: separator keys are the lower bounds of their subtrees). -/
def mkTag {V : Type} (t : bnode V) : Nat × bnode V := (lowKey t, t)

mutual

/-- §4.2 insert into one node, returning the (separator, node) replacement
pairs: one pair normally; when the node would exceed `max_entries = m` it is
split at the midpoint into two pairs, whose new separator rises to the
parent. -/
def ins {V : Type} (m k : Nat) (v : V) : bnode V → List (Nat × bnode V)
  | .leaf es =>
      let es2 := insEntry k v es
      if es2.length ≤ m then [mkTag (.leaf es2)]
      else [mkTag (.leaf (es2.take (es2.length / 2))),
            mkTag (.leaf (es2.drop (es2.length / 2)))]
  | .internal cs =>
      let cs2 := insL m k v cs
      if cs2.length ≤ m then [mkTag (.internal cs2)]
      else [mkTag (.internal (cs2.take (cs2.length / 2))),
            mkTag (.internal (cs2.drop (cs2.length / 2)))]

/-- Insert below the correct child of an internal node: the rightmost child
whose separator key is at most the new key, or the first child when the new
key is below every separator; the child's replacement pairs are spliced in
place. -/
def insL {V : Type} (m k : Nat) (v : V) : List (Nat × bnode V) → List (Nat × bnode V)
  | [] => []
  | [(_, c)] => ins m k v c
  | (k1, c1) :: (k2, c2) :: rest =>
      if k < k2 then ins m k v c1 ++ (k2, c2) :: rest
      else (k1, c1) :: insL m k v ((k2, c2) :: rest)

end

/-- §4.2 insert at the root: when the root splits, a new root is created
over the two halves (this is how tree height increases). -/
def insert {V : Type} (m k : Nat) (v : V) (t : bnode V) : bnode V :=
  match ins m k v t with
  | [(_, t2)] => t2
  | parts => .internal parts

mutual

/-- §4.2 lookup: `none` (`NotFound`) when the target is below the node's
first key or absent from the reached leaf. -/
def lookup {V : Type} (k : Nat) : bnode V → Option V
  | .leaf es => findEntry k es
  | .internal cs => lookupL k cs

/-- Lookup below the rightmost child whose separator is at most the
target. -/
def lookupL {V : Type} (k : Nat) : List (Nat × bnode V) → Option V
  | [] => none
  | [(k1, c)] => if k < k1 then none else lookup k c
  | (k1, c1) :: (k2, c2) :: rest =>
      if k < k1 then none
      else if k < k2 then lookup k c1
      else lookupL k ((k2, c2) :: rest)

end

/-- §4.2 underflow repair with the right sibling: move the sibling's first
entry across (adjusting the shared separator) when the sibling is above the
occupancy minimum, otherwise merge the two nodes into one. -/
def stealOrMergeR {V : Type} (m : Nat) : bnode V → bnode V → List (Nat × bnode V)
  | .leaf ea, .leaf eb =>
      if (m + 1) / 2 < eb.length then
        match eb with
        | [] => [mkTag (.leaf ea)]
        | e :: eb2 => [mkTag (.leaf (ea ++ [e])), mkTag (.leaf eb2)]
      else [mkTag (.leaf (ea ++ eb))]
  | .internal ca, .internal cb =>
      if (m + 1) / 2 < cb.length then
        match cb with
        | [] => [mkTag (.internal ca)]
        | e :: cb2 => [mkTag (.internal (ca ++ [e])), mkTag (.internal cb2)]
      else [mkTag (.internal (ca ++ cb))]
  | a, b => [mkTag a, mkTag b]

/-- §4.2 underflow repair with the left sibling: move that sibling's last
entry across when it is above the occupancy minimum, otherwise merge. -/
def stealOrMergeL {V : Type} (m : Nat) : bnode V → bnode V → List (Nat × bnode V)
  | .leaf ea, .leaf eb =>
      if (m + 1) / 2 < ea.length then
        match ea.getLast? with
        | none => [mkTag (.leaf eb)]
        | some e => [mkTag (.leaf ea.dropLast), mkTag (.leaf (e :: eb))]
      else [mkTag (.leaf (ea ++ eb))]
  | .internal ca, .internal cb =>
      if (m + 1) / 2 < ca.length then
        match ca.getLast? with
        | none => [mkTag (.internal cb)]
        | some e => [mkTag (.internal ca.dropLast), mkTag (.internal (e :: cb))]
      else [mkTag (.internal (ca ++ cb))]
  | a, b => [mkTag a, mkTag b]

mutual

/-- §4.2 erase from one node: `none` when the key is absent (`NotFound`).
The returned node may have dropped below the occupancy minimum; its parent
repairs that with an adjacent sibling, and the root is exempt. -/
def er {V : Type} (m k : Nat) : bnode V → Option (bnode V)
  | .leaf es =>
      if (es.map Prod.fst).contains k then some (.leaf (rmEntry k es)) else none
  | .internal cs => (erL m k cs).map .internal

/-- Erase below the correct child of a child list, repairing an underfull
child by redistribution from an adjacent sibling when that sibling is above
the minimum, and by merging with it (removing the then-redundant separator)
otherwise. -/
def erL {V : Type} (m k : Nat) : List (Nat × bnode V) → Option (List (Nat × bnode V))
  | [] => none
  | [(k1, c)] =>
      if k < k1 then none
      else (er m k c).map (fun c2 => [mkTag c2])
  | (k1, c1) :: (k2, c2) :: rest =>
      if k < k1 then none
      else if k < k2 then
        (er m k c1).map (fun c3 =>
          if (m + 1) / 2 ≤ nodeSize c3 then mkTag c3 :: (k2, c2) :: rest
          else stealOrMergeR m c3 c2 ++ rest)
      else
        (erL m k ((k2, c2) :: rest)).map (fun cs2 =>
          match cs2 with
          | (k3, c3) :: rest2 =>
              if (m + 1) / 2 ≤ nodeSize c3 then (k1, c1) :: (k3, c3) :: rest2
              else stealOrMergeL m c1 c3 ++ rest2
          | [] => [(k1, c1)])

end

/-- §4.2 erase at the root: `none` (`NotFound`) when the key is absent; a
root left with a single child has that child become the new root (tree
height shrinks by one). -/
def erase {V : Type} (m k : Nat) (t : bnode V) : Option (bnode V) :=
  (er m k t).map (fun t2 =>
    match t2 with
    | .internal [(_, c)] => c
    | t3 => t3)

/-- The tests' `insert_values` pattern generalized: a sequence of inserts
applied to an initially empty tree. -/
def applyInserts {V : Type} (m : Nat) (ops : List (Nat × V)) : bnode V :=
  ops.foldl (fun t q => insert m q.1 q.2 t) (.leaf [])

/-- The value most recently inserted for a key by a sequence of inserts. -/
def lastWrite {V : Type} (ops : List (Nat × V)) (k : Nat) : Option V :=
  ops.foldl (fun acc q => if q.1 = k then some q.2 else acc) none

/-- A mutating operation: an insert or an erase. -/
inductive treeOp (V : Type) : Type where
  | ins (k : Nat) (v : V)
  | del (k : Nat)

/-- Apply one mutating operation (an erase of an absent key is `NotFound`
and leaves the tree unchanged). -/
def applyOp {V : Type} (m : Nat) (t : bnode V) : treeOp V → bnode V
  | .ins k v => insert m k v t
  | .del k => (erase m k t).getD t

/-- Any interleaving of inserts and erases starting from the empty tree. -/
def applyOps {V : Type} (m : Nat) (ops : List (treeOp V)) : bnode V :=
  ops.foldl (applyOp m) (.leaf [])

mutual

/-- Occupancy of a non-root node and of everything below it:
`⌈m/2⌉ ≤ entries ≤ m` (§3's B-tree occupancy invariant). -/
def occSubB {V : Type} (m : Nat) : bnode V → Bool
  | .leaf es => decide ((m + 1) / 2 ≤ es.length) && decide (es.length ≤ m)
  | .internal cs =>
      decide ((m + 1) / 2 ≤ cs.length) && decide (cs.length ≤ m) && occSubL m cs

/-- `occSubB` over a child list. -/
def occSubL {V : Type} (m : Nat) : List (Nat × bnode V) → Bool
  | [] => true
  | (_, c) :: rest => occSubB m c && occSubL m rest

end

/-- C5's occupancy invariant for a whole tree: every non-root node has
occupancy within `[⌈m/2⌉, m]`; the root is exempt from the minimum but still
capped by `max_entries`. -/
def occRootB {V : Type} (m : Nat) : bnode V → Bool
  | .leaf es => decide (es.length ≤ m)
  | .internal cs => decide (cs.length ≤ m) && occSubL m cs

/-- A small well-formed test tree for witnesses: two leaves of two entries
under one internal root, capacity `max_entries = 3`. -/
def ctree : bnode thing :=
  .internal [(1, .leaf [(1, mkThing 1), (2, mkThing 2)]),
             (5, .leaf [(5, mkThing 5), (6, mkThing 6)])]

/-- The store of a freshly mutated single-leaf tree whose block was written
but never committed: the root image exists at block 0 with its checksum not
yet stamped. -/
def unflushedStore : store thing :=
  fun a => if a = 0 then some (false, .leaf [(1, mkThing 1)]) else none


theorem sortedKeysB_iff : ∀ l : List Nat, sortedKeysB l = true ↔ l.Chain' (· < ·)
  | [] => by simp [sortedKeysB]
  | [a] => by simp [sortedKeysB]
  | a :: b :: rest => by
      simp [sortedKeysB, Bool.and_eq_true, decide_eq_true_eq,
        sortedKeysB_iff (b :: rest), List.chain'_cons]

theorem allLtB_iff (l : List Nat) (b : Nat) : allLtB l b = true ↔ ∀ a ∈ l, a < b := by
  simp [allLtB]

theorem wfB_leaf_iff {V : Type} {m lb : Nat} {es : List (Nat × V)} :
    wfB m lb (.leaf es) = true ↔
      lb ≤ es.length ∧ es.length ≤ m ∧ (es.map Prod.fst).Chain' (· < ·) := by
  simp [wfB, Bool.and_eq_true, decide_eq_true_eq, sortedKeysB_iff, and_assoc]

theorem wfB_internal_iff {V : Type} {m lb : Nat} {cs : List (Nat × bnode V)} :
    wfB m lb (.internal cs) = true ↔
      lb ≤ cs.length ∧ cs.length ≤ m ∧ 1 ≤ cs.length ∧ wfL m cs = true ∧
        tagsB cs = true ∧ sepChainB cs = true ∧ heightsB cs = true := by
  simp [wfB, Bool.and_eq_true, decide_eq_true_eq, and_assoc]

theorem wfL_mem {V : Type} {m : Nat} {cs : List (Nat × bnode V)} (h : wfL m cs = true) :
    ∀ p ∈ cs, wfB m ((m + 1) / 2) p.2 = true := by
  induction cs with
  | nil => simp
  | cons q rest ih =>
      obtain ⟨kq, cq⟩ := q
      simp only [wfL, Bool.and_eq_true] at h
      intro p hp
      rcases List.mem_cons.mp hp with rfl | hp
      · exact h.1
      · exact ih h.2 p hp

theorem wfL_tail {V : Type} {m : Nat} {q : Nat × bnode V} {rest : List (Nat × bnode V)}
    (h : wfL m (q :: rest) = true) : wfL m rest = true := by
  obtain ⟨kq, cq⟩ := q
  simp only [wfL, Bool.and_eq_true] at h
  exact h.2

theorem wfL_head {V : Type} {m : Nat} {q : Nat × bnode V} {rest : List (Nat × bnode V)}
    (h : wfL m (q :: rest) = true) : wfB m ((m + 1) / 2) q.2 = true :=
  wfL_mem h q (List.mem_cons_self _ _)

theorem tagsB_mem {V : Type} {cs : List (Nat × bnode V)} (h : tagsB cs = true) :
    ∀ p ∈ cs, (keyList p.2).head? = some p.1 := by
  intro p hp
  exact beq_iff_eq.mp (List.all_eq_true.mp h p hp)

theorem tagsB_tail {V : Type} {q : Nat × bnode V} {rest : List (Nat × bnode V)}
    (h : tagsB (q :: rest) = true) : tagsB rest = true := by
  simp only [tagsB, List.all_cons, Bool.and_eq_true] at h ⊢
  exact h.2

theorem sepChainB_tail {V : Type} {q : Nat × bnode V} {rest : List (Nat × bnode V)}
    (h : sepChainB (q :: rest) = true) : sepChainB rest = true := by
  cases rest with
  | nil => rfl
  | cons r rest' =>
      simp only [sepChainB, Bool.and_eq_true] at h
      exact h.2

theorem keyList_ne_nil_iff {V : Type} (t : bnode V) :
    keyList t ≠ [] ↔ entryList t ≠ [] := by
  simp [keyList]

theorem entryList_ne_nil {V : Type} {m b : Nat} {t : bnode V} (hlb : 1 ≤ b)
    (h : wfB m b t = true) : entryList t ≠ [] := by
  cases t with
  | leaf es =>
      obtain ⟨h1, -, -⟩ := wfB_leaf_iff.mp h
      cases es with
      | nil => simp at h1; omega
      | cons e es' => simp [entryList]
  | internal cs =>
      obtain ⟨-, -, hone, -, htags, -⟩ := wfB_internal_iff.mp h
      cases cs with
      | nil => simp at hone
      | cons q rest =>
          have htag := tagsB_mem htags q (List.mem_cons_self _ _)
          have hne : entryList q.2 ≠ [] := by
            intro hnil
            simp [keyList, hnil] at htag
          obtain ⟨kq, cq⟩ := q
          simp only [entryList, entryListL]
          intro hcon
          exact hne (List.append_eq_nil.mp hcon).1

/-- The entries of a tree decompose around the subtree at any valid path. -/
theorem entry_decomp {V : Type} (p : List Nat) (t : bnode V) :
    validPathB p t = true →
      entryList t = entBefore p t ++ subEntries p t ++ entAfter p t := by
  refine @subEntries.induct V
    (fun p t => validPathB p t = true →
      entryList t = entBefore p t ++ subEntries p t ++ entAfter p t)
    (fun i p cs => validPathL i p cs = true →
      entryListL cs = entBeforeL i p cs ++ subEntriesL i p cs ++ entAfterL i p cs)
    ?_ ?_ ?_ ?_ ?_ ?_ p t
  · intro t _
    simp [entBefore, subEntries, entAfter]
  · intro i p es h
    simp [validPathB] at h
  · intro i p cs ih h
    simp only [validPathB] at h
    simp only [entryList, entBefore, subEntries, entAfter]
    exact ih h
  · intro i p h
    simp [validPathL] at h
  · intro p k c rest ih h
    simp only [validPathL] at h
    simp only [entryListL, entBeforeL, subEntriesL, entAfterL]
    rw [ih h]
    simp [List.append_assoc]
  · intro j p k c rest ih h
    simp only [validPathL] at h
    simp only [entryListL, entBeforeL, subEntriesL, entAfterL]
    rw [ih h]
    simp [List.append_assoc]

/-- The subtree at a valid path below any node of occupancy at least one
stores at least one entry. -/
theorem subEntries_ne_nil {V : Type} {m : Nat} (hm : 1 ≤ m) (p : List Nat)
    (t : bnode V) :
    ∀ lb, 1 ≤ lb → wfB m lb t = true → validPathB p t = true →
      subEntries p t ≠ [] := by
  refine @subEntries.induct V
    (fun p t => ∀ lb, 1 ≤ lb → wfB m lb t = true → validPathB p t = true →
      subEntries p t ≠ [])
    (fun i p cs => wfL m cs = true → validPathL i p cs = true →
      subEntriesL i p cs ≠ [])
    ?_ ?_ ?_ ?_ ?_ ?_ p t
  · intro t lb hlb hw _
    simpa [subEntries] using entryList_ne_nil hlb hw
  · intro i p es lb _ _ h
    simp [validPathB] at h
  · intro i p cs ih lb _ hw h
    simp only [validPathB] at h
    obtain ⟨-, -, -, hwl, -, -⟩ := wfB_internal_iff.mp hw
    simpa [subEntries] using ih hwl h
  · intro i p hwl h
    simp [validPathL] at h
  · intro p k c rest ih hwl h
    simp only [validPathL] at h
    simp only [subEntriesL]
    exact ih ((m + 1) / 2) (by omega) (wfL_head hwl) h
  · intro j p k c rest ih hwl h
    simp only [validPathL] at h
    simp only [subEntriesL]
    exact ih (wfL_tail hwl) h

theorem head_le_of_sorted {l : List Nat} (hs : l.Chain' (· < ·)) {h : Nat}
    (hh : l.head? = some h) : ∀ b ∈ l, h ≤ b := by
  cases l with
  | nil => simp at hh
  | cons a l' =>
      simp only [List.head?_cons, Option.some.injEq] at hh
      subst hh
      intro b hb
      rcases List.mem_cons.mp hb with rfl | hb
      · exact le_refl b
      · have hp := List.chain'_iff_pairwise.mp hs
        have := (List.pairwise_cons.mp hp).1 b hb
        omega

/-- C4's core invariant: a well-formed tree stores its keys in strictly
ascending depth-first order. -/
theorem keyList_sorted {V : Type} {m : Nat} (hm : 1 ≤ m) (t : bnode V) :
    ∀ lb, wfB m lb t = true → (keyList t).Chain' (· < ·) := by
  refine @entryList.induct V
    (fun t => ∀ lb, wfB m lb t = true → (keyList t).Chain' (· < ·))
    (fun cs => wfL m cs = true → tagsB cs = true → sepChainB cs = true →
      ((entryListL cs).map Prod.fst).Chain' (· < ·))
    ?_ ?_ ?_ ?_ t
  · intro es lb hw
    simpa [keyList, entryList] using (wfB_leaf_iff.mp hw).2.2
  · intro cs ih lb hw
    obtain ⟨-, -, -, hwl, htags, hsep, -⟩ := wfB_internal_iff.mp hw
    simpa [keyList, entryList] using ih hwl htags hsep
  · intro _ _ _
    simp [entryListL]
  · intro k c rest ih ihL hwl htags hsep
    simp only [entryListL, List.map_append]
    rw [List.chain'_append]
    refine ⟨?_, ?_, ?_⟩
    · exact ih ((m + 1) / 2) (wfL_head hwl)
    · exact ihL (wfL_tail hwl) (tagsB_tail htags) (sepChainB_tail hsep)
    · intro x hx y hy
      cases rest with
      | nil => simp [entryListL] at hy
      | cons q rest₂ =>
          obtain ⟨kq, cq⟩ := q
          have hne : entryList cq ≠ [] :=
            entryList_ne_nil (b := (m + 1) / 2) (by omega)
              (wfL_head (wfL_tail hwl))
          have hmapne : (entryList cq).map Prod.fst ≠ [] := by
            simpa using hne
          rw [entryListL, List.map_append,
            List.head?_append_of_ne_nil _ hmapne] at hy
          have htag := tagsB_mem htags (kq, cq) (by simp)
          rw [keyList] at htag
          rw [htag] at hy
          obtain rfl : kq = y := by simpa using hy
          have hxmem : x ∈ keyList c := by
            obtain ⟨hne', rfl⟩ := List.mem_getLast?_eq_getLast hx
            exact List.getLast_mem hne'
          have hlt : allLtB (keyList c) kq = true := by
            simp only [sepChainB, Bool.and_eq_true] at hsep
            exact hsep.1
          exact (allLtB_iff _ _).mp hlt x hxmem

/-- Adjacent well-formed siblings hold non-overlapping ascending key
ranges. -/
theorem sepChain_spans {V : Type} {m : Nat} (hm : 1 ≤ m)
    (cs : List (Nat × bnode V)) :
    wfL m cs = true → tagsB cs = true → sepChainB cs = true →
      cs.Chain' (fun p q => ∀ a ∈ keyList p.2, ∀ b ∈ keyList q.2, a < b) := by
  induction cs with
  | nil => simp
  | cons p rest ih =>
      intro hw ht hs
      cases rest with
      | nil => simp
      | cons q rest₂ =>
          rw [List.chain'_cons]
          constructor
          · intro a ha b hb
            have h1 : a < q.1 := by
              have : allLtB (keyList p.2) q.1 = true := by
                simp only [sepChainB, Bool.and_eq_true] at hs
                exact hs.1
              exact (allLtB_iff _ _).mp this a ha
            have hsorted : (keyList q.2).Chain' (· < ·) :=
              keyList_sorted hm q.2 ((m + 1) / 2) (wfL_head (wfL_tail hw))
            have htag := tagsB_mem ht q (by simp)
            have h2 : q.1 ≤ b := head_le_of_sorted hsorted htag b hb
            omega
          · exact ih (wfL_tail hw) (tagsB_tail ht) (sepChainB_tail hs)

/-- In a well-formed tree, every node's children (at equal depth, in visit
order) span non-overlapping ascending key ranges. -/
theorem wf_sibSpans {V : Type} {m : Nat} (hm : 1 ≤ m) (t : bnode V) :
    ∀ lb, wfB m lb t = true → allNodes sibSpansOrdered t := by
  refine @entryList.induct V
    (fun t => ∀ lb, wfB m lb t = true → allNodes sibSpansOrdered t)
    (fun cs => wfL m cs = true → allNodesL sibSpansOrdered cs)
    ?_ ?_ ?_ ?_ t
  · intro es lb _
    simp [allNodes, sibSpansOrdered]
  · intro cs ih lb hw
    obtain ⟨-, -, -, hwl, htags, hsep, -⟩ := wfB_internal_iff.mp hw
    exact ⟨sepChain_spans hm cs hwl htags hsep, ih hwl⟩
  · intro _
    simp [allNodesL]
  · intro k c rest ih ihL hwl
    exact ⟨ih ((m + 1) / 2) (wfL_head hwl), ihL (wfL_tail hwl)⟩

theorem walkL_embedL {V : Type} (cs : List (Nat × bnode V)) :
    ∀ lo hi, walkL lo hi (embedL cs) = ((entryListL cs).map Prod.snd, []) := by
  refine @embedL.induct V
    (fun t => ∀ lo hi, walk lo hi (embed t) = ((entryList t).map Prod.snd, []))
    (fun cs => ∀ lo hi, walkL lo hi (embedL cs) = ((entryListL cs).map Prod.snd, []))
    ?_ ?_ ?_ ?_ cs
  · intro es lo hi
    simp [embed, walk, entryList]
  · intro cs ih lo hi
    simp [embed, walk, entryList, ih]
  · intro lo hi
    simp [embedL, walkL, entryListL]
  · intro k c rest ihc ihrest lo hi
    simp only [embedL, walkL, entryListL]
    rw [ihrest]
    cases rest with
    | nil => simp [embedL, walkL, entryListL, ihc]
    | cons q rest' => simp [embedL, walkL, ihc]

theorem walk_embed {V : Type} (t : bnode V) (lo hi : Option Nat) :
    walk lo hi (embed t) = ((entryList t).map Prod.snd, []) := by
  cases t with
  | leaf es => simp [embed, walk, entryList]
  | internal cs => simp [embed, walk, entryList, walkL_embedL]

theorem isEmpty_false_of_ne_nil {α : Type} {l : List α} (h : l ≠ []) :
    l.isEmpty = false := by
  cases l with
  | nil => exact absurd rfl h
  | cons a l' => rfl

theorem dmgLo_nil {V : Type} (lo : Option Nat) (sub : List (Nat × V)) :
    dmgLo lo [] sub = lo := rfl

theorem dmgLo_of_ne_nil {V : Type} (lo : Option Nat) {before : List (Nat × V)}
    (sub : List (Nat × V)) (h : before ≠ []) :
    dmgLo lo before sub = (sub.map Prod.fst).head? := by
  simp [dmgLo, isEmpty_false_of_ne_nil h]

theorem dmgHi_nil {V : Type} (hi : Option Nat) :
    dmgHi hi ([] : List (Nat × V)) = hi := rfl

theorem dmgHi_of_ne_nil {V : Type} (hi : Option Nat) {after : List (Nat × V)}
    (h : after ≠ []) :
    dmgHi hi after = (after.map Prod.fst).head? := by
  simp [dmgHi, isEmpty_false_of_ne_nil h]

theorem walkL_cons {V : Type} (lo hi : Option Nat) (k : Nat) (c : dnode V)
    (rest : List (Nat × dnode V)) :
    walkL lo hi ((k, c) :: rest) =
      ((walk lo (nextBound hi rest) c).1 ++ (walkL (nextBound hi rest) hi rest).1,
       (walk lo (nextBound hi rest) c).2 ++ (walkL (nextBound hi rest) hi rest).2) := by
  cases rest with
  | nil => simp [walkL, nextBound]
  | cons q rest' =>
      obtain ⟨kq, cq⟩ := q
      simp [walkL, nextBound]

theorem nextBound_damageAtL {V : Type} (hi : Option Nat) (j : Nat) (p : List Nat)
    (q : Nat × bnode V) (rest : List (Nat × bnode V)) :
    nextBound hi (damageAtL j p (q :: rest)) = some q.1 := by
  obtain ⟨kq, cq⟩ := q
  cases j <;> simp [damageAtL, nextBound]

/-- Shifting an upper damage bound across a run of intact right siblings:
the bound handed over by `walkL` before those siblings equals the first key
stored after the damaged subtree. -/
theorem dmgHi_shift {V : Type} {m : Nat} (hm : 1 ≤ m) (hi : Option Nat)
    (A : List (Nat × V)) (rest : List (Nat × bnode V)) (hw : wfL m rest = true)
    (ht : tagsB rest = true) :
    dmgHi (nextBound hi (embedL rest)) A = dmgHi hi (A ++ entryListL rest) := by
  cases A with
  | cons a A' =>
      rw [dmgHi_of_ne_nil _ (List.cons_ne_nil a A'),
        dmgHi_of_ne_nil _ (by simp : (a :: A') ++ entryListL rest ≠ [])]
      simp
  | nil =>
      simp only [List.nil_append]
      cases rest with
      | nil => simp [embedL, nextBound, entryListL, dmgHi]
      | cons q rest₂ =>
          obtain ⟨kq, cq⟩ := q
          have hne : entryList cq ≠ [] :=
            entryList_ne_nil (b := (m + 1) / 2) (by omega) (wfL_head hw)
          have hcat : entryListL ((kq, cq) :: rest₂) ≠ [] := by
            simp only [entryListL]
            intro hcon
            exact hne (List.append_eq_nil.mp hcon).1
          rw [dmgHi_of_ne_nil _ hcat]
          have htag := tagsB_mem ht (kq, cq) (by simp)
          rw [keyList] at htag
          simp only [embedL, nextBound, entryListL, List.map_append]
          rw [List.head?_append_of_ne_nil _ (by simpa using hne)]
          rw [htag]
          simp [dmgHi]

/-- If nothing precedes the damaged subtree inside a child list, the damaged
subtree starts at the list's first separator key. -/
theorem subEnt_head_of_before_nil {V : Type} {m : Nat} (hm : 1 ≤ m) (i : Nat)
    (p : List Nat) (k : Nat) (c : bnode V) (rest : List (Nat × bnode V))
    (hw : wfL m ((k, c) :: rest) = true) (ht : tagsB ((k, c) :: rest) = true)
    (hv : validPathL i p ((k, c) :: rest) = true)
    (hb : entBeforeL i p ((k, c) :: rest) = []) :
    ((subEntriesL i p ((k, c) :: rest)).map Prod.fst).head? = some k := by
  cases i with
  | zero =>
      simp only [validPathL] at hv
      simp only [entBeforeL] at hb
      simp only [subEntriesL]
      have hdec := entry_decomp p c hv
      rw [hb, List.nil_append] at hdec
      have hsub : subEntries p c ≠ [] :=
        subEntries_ne_nil hm p c ((m + 1) / 2) (by omega) (wfL_head hw) hv
      have htag := tagsB_mem ht (k, c) (by simp)
      rw [keyList, hdec] at htag
      rw [List.map_append, List.head?_append_of_ne_nil _ (by simpa using hsub)]
        at htag
      exact htag
  | succ j =>
      simp only [entBeforeL] at hb
      have hne : entryList c ≠ [] :=
        entryList_ne_nil (b := (m + 1) / 2) (by omega) (wfL_head hw)
      exact absurd (List.append_eq_nil.mp hb).1 hne

/-- The damage-tolerant traversal of a well-formed tree with the single node
at a valid path corrupted: every entry outside the damaged subtree is
delivered to the value consumer, in order, and exactly one damage record is
emitted, whose range runs from the damaged subtree's first stored key (or
the inherited lower bound when nothing precedes it) to the first key stored
after the damaged subtree (or the inherited upper bound when nothing
follows). -/
theorem walk_damageAt_main {V : Type} {m : Nat} (hm : 1 ≤ m) (p : List Nat)
    (t : bnode V) :
    ∀ lb lo hi, wfB m lb t = true → validPathB p t = true →
      walk lo hi (damageAt p t) =
        ((entBefore p t ++ entAfter p t).map Prod.snd,
         [⟨0, ⟨dmgLo lo (entBefore p t) (subEntries p t),
               dmgHi hi (entAfter p t)⟩, lostKeysDesc⟩]) := by
  refine @damageAt.induct V
    (fun p t => ∀ lb lo hi, wfB m lb t = true → validPathB p t = true →
      walk lo hi (damageAt p t) =
        ((entBefore p t ++ entAfter p t).map Prod.snd,
         [⟨0, ⟨dmgLo lo (entBefore p t) (subEntries p t),
               dmgHi hi (entAfter p t)⟩, lostKeysDesc⟩]))
    (fun i p cs => ∀ lo hi, wfL m cs = true → tagsB cs = true →
      validPathL i p cs = true →
      walkL lo hi (damageAtL i p cs) =
        ((entBeforeL i p cs ++ entAfterL i p cs).map Prod.snd,
         [⟨0, ⟨dmgLo lo (entBeforeL i p cs) (subEntriesL i p cs),
               dmgHi hi (entAfterL i p cs)⟩, lostKeysDesc⟩]))
    ?_ ?_ ?_ ?_ ?_ ?_ p t
  · intro t lb lo hi _ _
    simp [damageAt, walk, entBefore, entAfter, subEntries, dmgLo, dmgHi]
  · intro i p es lb lo hi _ hv
    simp [validPathB] at hv
  · intro i p cs ih lb lo hi hw hv
    simp only [validPathB] at hv
    obtain ⟨-, -, -, hwl, htags, -⟩ := wfB_internal_iff.mp hw
    simp only [damageAt, walk, entBefore, entAfter, subEntries]
    exact ih lo hi hwl htags hv
  · intro i p lo hi _ _ hv
    simp [validPathL] at hv
  · intro p k c rest ih lo hi hwl htags hv
    simp only [validPathL] at hv
    simp only [damageAtL]
    rw [walkL_cons]
    rw [ih ((m + 1) / 2) lo (nextBound hi (embedL rest)) (wfL_head hwl) hv]
    rw [walkL_embedL rest (nextBound hi (embedL rest)) hi]
    simp only [entBeforeL, entAfterL, subEntriesL, List.map_append,
      List.append_assoc, List.append_nil]
    rw [dmgHi_shift hm hi (entAfter p c) rest (wfL_tail hwl) (tagsB_tail htags)]
  · intro j p k c rest ih lo hi hwl htags hv
    simp only [validPathL] at hv
    cases rest with
    | nil => simp [validPathL] at hv
    | cons q rest₂ =>
        obtain ⟨kq, cq⟩ := q
        simp only [damageAtL]
        rw [walkL_cons]
        rw [nextBound_damageAtL]
        rw [walk_embed]
        rw [ih (some kq) hi (wfL_tail hwl) (tagsB_tail htags) hv]
        have hne : entryList c ≠ [] :=
          entryList_ne_nil (b := (m + 1) / 2) (by omega) (wfL_head hwl)
        have hBne : entryList c ++ entBeforeL j p ((kq, cq) :: rest₂) ≠ [] := by
          intro hcon
          exact hne (List.append_eq_nil.mp hcon).1
        simp only [entBeforeL, entAfterL, subEntriesL, List.map_append,
      List.append_assoc, List.append_nil]
        rw [dmgLo_of_ne_nil lo _ hBne]
        cases hB : entBeforeL j p ((kq, cq) :: rest₂) with
        | nil =>
            rw [subEnt_head_of_before_nil hm j p kq cq rest₂ (wfL_tail hwl)
              (tagsB_tail htags) hv hB]
            simp [dmgLo]
        | cons b B' =>
            rw [dmgLo_of_ne_nil (some kq) _ (List.cons_ne_nil b B')]
            simp

theorem validPathB_of_leafPathB {V : Type} (p : List Nat) (t : bnode V) :
    leafPathB p t = true → validPathB p t = true := by
  refine @leafPathB.induct V
    (fun p t => leafPathB p t = true → validPathB p t = true)
    (fun i p cs => leafPathL i p cs = true → validPathL i p cs = true)
    ?_ ?_ ?_ ?_ ?_ ?_ ?_ p t
  · intro es _
    rfl
  · intro cs _
    rfl
  · intro i p es h
    simp [leafPathB] at h
  · intro i p cs ih h
    simp only [leafPathB] at h
    simp only [validPathB]
    exact ih h
  · intro i p h
    simp [leafPathL] at h
  · intro p k c rest ih h
    simp only [leafPathL] at h
    simp only [validPathL]
    exact ih h
  · intro j p k c rest ih h
    simp only [leafPathL] at h
    simp only [validPathL]
    exact ih h

theorem wfRoot_wfB {V : Type} {m : Nat} {t : bnode V} (h : wfRoot m t = true) :
    ∃ lb, wfB m lb t = true := by
  cases t with
  | leaf es => exact ⟨0, h⟩
  | internal cs => exact ⟨2, h⟩

/-! ## Claims about traversal of damaged and undamaged trees -/

/-- C3: damage-tolerant traversal of an undamaged well-formed tree invokes
the value consumer exactly once per stored entry, in ascending key order
(the emitted values are the entry values in strictly-ascending-key order),
and never invokes the damage consumer; the empty tree (a valid root leaf
with zero entries) invokes neither consumer. -/
theorem undamaged_traversal {V : Type} (m : Nat) (t : bnode V) (hm : 1 ≤ m)
    (h : wfRoot m t = true) :
    visitDamageTolerant (embed t) = ((entryList t).map Prod.snd, []) ∧
      (keyList t).Chain' (· < ·) ∧
      visitDamageTolerant (embed (bnode.leaf ([] : List (Nat × V)))) = ([], []) := by
  refine ⟨walk_embed t none none, ?_,
    by simp [visitDamageTolerant, embed, walk, entryList]⟩
  obtain ⟨lb, hw⟩ := wfRoot_wfB h
  exact keyList_sorted hm t lb hw

theorem undamaged_traversal_witness :
    ((1 : Nat) ≤ 3 ∧ wfRoot 3 ctree = true) ∧
      visitDamageTolerant (embed ctree) =
        ([mkThing 1, mkThing 2, mkThing 5, mkThing 6], []) := by
  refine ⟨⟨by omega, by decide⟩, ?_⟩
  rw [(undamaged_traversal 3 ctree (by omega) (by decide)).1]
  decide

/-- C4: the traversal delivers values in strictly ascending order of the
key: the depth-first in-order entry sequence of a well-formed tree has
strictly ascending, duplicate-free keys, the value consumer receives the
values in exactly that order, and in every node consecutive sibling subtrees
span non-overlapping ascending key ranges. -/
theorem traversal_ascending_order {V : Type} (m : Nat) (t : bnode V) (hm : 1 ≤ m)
    (h : wfRoot m t = true) :
    (visitDamageTolerant (embed t)).1 = (entryList t).map Prod.snd ∧
      (keyList t).Chain' (· < ·) ∧ (keyList t).Nodup ∧
      allNodes sibSpansOrdered t := by
  obtain ⟨lb, hw⟩ := wfRoot_wfB h
  have hs := keyList_sorted hm t lb hw
  refine ⟨by rw [visitDamageTolerant, walk_embed t none none], hs, ?_,
    wf_sibSpans hm t lb hw⟩
  exact (List.chain'_iff_pairwise.mp hs).nodup

theorem traversal_ascending_order_witness :
    ((1 : Nat) ≤ 3 ∧ wfRoot 3 ctree = true) ∧
      ((visitDamageTolerant (embed ctree)).1 = (entryList ctree).map Prod.snd ∧
        (keyList ctree).Chain' (· < ·) ∧ (keyList ctree).Nodup ∧
        allNodes sibSpansOrdered ctree) :=
  ⟨⟨by omega, by decide⟩, traversal_ascending_order 3 ctree (by omega) (by decide)⟩

/-- C8: a damaged node never aborts the traversal: with the subtree at any
valid path corrupted, the traversal still runs to completion, does not
descend into the damaged subtree, and delivers the value callbacks of every
entry before and after it (so the damaged node's later siblings are still
visited), plus exactly one damage callback. -/
theorem damaged_node_never_aborts {V : Type} (m : Nat) (t : bnode V) (p : List Nat)
    (hm : 1 ≤ m) (hwf : wfRoot m t = true) (hp : validPathB p t = true) :
    (visitDamageTolerant (damageAt p t)).1 =
        (entBefore p t ++ entAfter p t).map Prod.snd ∧
      ∃ r, (visitDamageTolerant (damageAt p t)).2 = [⟨0, r, lostKeysDesc⟩] := by
  obtain ⟨lb, hw⟩ := wfRoot_wfB hwf
  rw [visitDamageTolerant, walk_damageAt_main hm p t lb none none hw hp]
  exact ⟨rfl, _, rfl⟩

theorem damaged_node_never_aborts_witness :
    ((1 : Nat) ≤ 3 ∧ wfRoot 3 ctree = true ∧ validPathB [0] ctree = true) ∧
      ((visitDamageTolerant (damageAt [0] ctree)).1 =
          (entBefore [0] ctree ++ entAfter [0] ctree).map Prod.snd ∧
        ∃ r, (visitDamageTolerant (damageAt [0] ctree)).2 = [⟨0, r, lostKeysDesc⟩]) :=
  ⟨⟨by omega, by decide, by decide⟩,
    damaged_node_never_aborts 3 ctree [0] (by omega) (by decide) (by decide)⟩

/-- C2 (amended): with exactly one leaf corrupted in a well-formed tree, the
traversal delivers every entry of every other leaf exactly once, in order,
and exactly one damage record at level 0; the record's upper bound is the
first key of the next leaf (unbounded if the corrupted leaf was last), and
its lower bound is the corrupted leaf's first key — except when the
corrupted leaf is the leftmost leaf, in which case the lower bound is
unbounded (the leaf's inherited bound), not the leaf's first key. -/
theorem damaged_leaf_report {V : Type} (m : Nat) (t : bnode V) (p : List Nat)
    (hm : 1 ≤ m) (hwf : wfRoot m t = true) (hp : leafPathB p t = true) :
    visitDamageTolerant (damageAt p t) =
      ((entBefore p t ++ entAfter p t).map Prod.snd,
       [⟨0, ⟨dmgLo none (entBefore p t) (subEntries p t),
             dmgHi none (entAfter p t)⟩, lostKeysDesc⟩]) := by
  obtain ⟨lb, hw⟩ := wfRoot_wfB hwf
  exact walk_damageAt_main hm p t lb none none hw (validPathB_of_leafPathB p t hp)

theorem damaged_leaf_report_witness :
    ((1 : Nat) ≤ 3 ∧ wfRoot 3 ctree = true ∧ leafPathB [1] ctree = true) ∧
      visitDamageTolerant (damageAt [1] ctree) =
        ([mkThing 1, mkThing 2], [⟨0, ⟨some 5, none⟩, lostKeysDesc⟩]) := by
  refine ⟨⟨by omega, by decide, by decide⟩, ?_⟩
  rw [damaged_leaf_report 3 ctree [1] (by omega) (by decide) (by decide)]
  decide

/-- C2 as stated fails on the leftmost leaf: in `ctree` the leaf at path
`[0]` holds first key `1`, yet corrupting it makes the traversal report the
damage range `[none, 5)` — an unbounded lower end, not the leaf's first key
`1`. -/
theorem damaged_leaf_report_counterexample :
    wfRoot 3 ctree = true ∧ leafPathB [0] ctree = true ∧
      (subEntries [0] ctree).map Prod.fst = [1, 2] ∧
      (visitDamageTolerant (damageAt [0] ctree)).2 =
        [⟨0, ⟨none, some 5⟩, lostKeysDesc⟩] ∧
      (⟨0, ⟨none, some 5⟩, lostKeysDesc⟩ : damage) ≠
        ⟨0, ⟨some 1, some 5⟩, lostKeysDesc⟩ := by
  decide

/-! ## Claims about corrupted roots, write-back, and damage equality -/

/-- C1: damage-tolerant traversal of a tree whose root block is corrupted
(unreadable, bad checksum, or bad header) invokes the value consumer zero
times and the damage consumer exactly once, with a key range unbounded on
both ends. -/
theorem corrupt_root_reports_whole_range {V : Type} (maxEntries fuel root : Nat)
    (s : store V) (hc : blockCorrupt maxEntries s root) (hf : 0 < fuel) :
    visitDamageTolerant (decodeTree maxEntries s fuel root) =
      ([], [⟨0, ⟨none, none⟩, lostKeysDesc⟩]) := by
  obtain ⟨f, rfl⟩ : ∃ f, fuel = f + 1 := ⟨fuel - 1, by omega⟩
  unfold blockCorrupt at hc
  unfold decodeTree
  cases hr : readBlock s root with
  | none => simp [visitDamageTolerant, walk]
  | some r =>
      rw [hr] at hc
      cases r with
      | leaf es =>
          have : ¬ es.length ≤ maxEntries := by omega
          simp [this, visitDamageTolerant, walk]
      | internal cs =>
          have : ¬ cs.length ≤ maxEntries := by omega
          simp [this, visitDamageTolerant, walk]

theorem corrupt_root_reports_whole_range_witness :
    blockCorrupt 3 (fun _ => (none : Option (Bool × rawNode thing))) 0 ∧
      visitDamageTolerant (decodeTree 3 (fun _ => (none : Option (Bool × rawNode thing))) 1 0) =
        ([], [⟨0, ⟨none, none⟩, lostKeysDesc⟩]) :=
  ⟨trivial, corrupt_root_reports_whole_range 3 1 0 _ trivial (by omega)⟩

/-- C9: the no-damage traversal guarantee requires the blocks to have been
written back first.  Traversing the freshly mutated, never-flushed tree
reports damage even though no corruption was injected; after commit (which
stamps block numbers and checksums) the same tree traverses cleanly, with
every value delivered and no damage. -/
theorem traversal_requires_commit :
    visitDamageTolerant (decodeTree 3 unflushedStore 1 0) =
        ([], [⟨0, ⟨none, none⟩, lostKeysDesc⟩]) ∧
      visitDamageTolerant (decodeTree 3 (commitStore unflushedStore) 1 0) =
        ([mkThing 1], []) := by
  constructor
  · rfl
  · rfl

/-- C10: equality on damage records, as used by the tests' `expect_damage`,
compares only the level and the key range: any two records agreeing there are
equal whatever their description strings; in particular the record emitted
for a damaged root compares equal to the tests' expected record carrying the
placeholder description `"foo"`, although the emitted description differs
from `"foo"`. -/
theorem damage_equality_ignores_description :
    (∀ (l : Nat) (r : range64) (d1 d2 : String),
        damageEq ⟨l, r, d1⟩ ⟨l, r, d2⟩ = true) ∧
      ((visitDamageTolerant (dnode.damaged : dnode thing)).2.map
          (fun d => damageEq d ⟨0, ⟨none, none⟩, "foo"⟩)) = [true] ∧
      ((visitDamageTolerant (dnode.damaged : dnode thing)).2.map damage.desc) =
          [lostKeysDesc] ∧
      lostKeysDesc ≠ "foo" := by
  refine ⟨?_, rfl, rfl, by decide⟩
  intro l r d1 d2
  simp [damageEq]

/-! ## Entry-run lemmas for the mutating operations -/

theorem wfB_mono {V : Type} {m lb lb' : Nat} {t : bnode V} (hle : lb' ≤ lb)
    (h : wfB m lb t = true) : wfB m lb' t = true := by
  cases t with
  | leaf es =>
      obtain ⟨h1, h2⟩ := wfB_leaf_iff.mp h
      exact wfB_leaf_iff.mpr ⟨le_trans hle h1, h2⟩
  | internal cs =>
      obtain ⟨h1, h2⟩ := wfB_internal_iff.mp h
      exact wfB_internal_iff.mpr ⟨le_trans hle h1, h2⟩

theorem mem_of_head_eq {α : Type} {l : List α} {a : α} (h : l.head? = some a) :
    a ∈ l := by
  cases l with
  | nil => simp at h
  | cons b l' =>
      simp only [List.head?_cons, Option.some.injEq] at h
      simp [h]

theorem insEntry_ne_nil {V : Type} (k : Nat) (v : V) (l : List (Nat × V)) :
    insEntry k v l ≠ [] := by
  cases l with
  | nil => simp [insEntry]
  | cons e rest =>
      obtain ⟨k', v'⟩ := e
      by_cases h1 : k < k'
      · simp [insEntry, h1]
      · by_cases h2 : k = k'
        · simp [insEntry, h1, h2]
        · simp [insEntry, h1, h2]

theorem insEntry_length {V : Type} (k : Nat) (v : V) :
    ∀ l : List (Nat × V),
      l.length ≤ (insEntry k v l).length ∧
        (insEntry k v l).length ≤ l.length + 1
  | [] => by simp [insEntry]
  | (k', v') :: rest => by
      by_cases h1 : k < k'
      · simp [insEntry, h1]
      · by_cases h2 : k = k'
        · simp [insEntry, h1, h2]
        · have := insEntry_length k v rest
          simp only [insEntry, if_neg h1, if_neg h2, List.length_cons]
          omega

theorem insEntry_keys {V : Type} (k : Nat) (v : V) :
    ∀ (l : List (Nat × V)) (a : Nat), a ∈ (insEntry k v l).map Prod.fst →
      a = k ∨ a ∈ l.map Prod.fst
  | [], a => by simp [insEntry]
  | (k', v') :: rest, a => by
      by_cases h1 : k < k'
      · simp [insEntry, h1]
      · by_cases h2 : k = k'
        · simp [insEntry, h1, h2]
        · simp only [insEntry, if_neg h1, if_neg h2, List.map_cons,
            List.mem_cons]
          intro h
          rcases h with rfl | h
          · simp
          · rcases insEntry_keys k v rest a h with rfl | h
            · simp
            · simp [h]

theorem insEntry_head {V : Type} (k : Nat) (v : V) (l : List (Nat × V)) :
    ((insEntry k v l).map Prod.fst).head? =
      some (min k ((l.map Prod.fst).headD k)) := by
  cases l with
  | nil => simp [insEntry]
  | cons e rest =>
      obtain ⟨k', v'⟩ := e
      by_cases h1 : k < k'
      · simp [insEntry, h1]
        omega
      · by_cases h2 : k = k'
        · subst h2
          simp [insEntry, h1]
        · simp [insEntry, h1, h2]
          omega

theorem insEntry_sorted {V : Type} (k : Nat) (v : V) :
    ∀ l : List (Nat × V), (l.map Prod.fst).Chain' (· < ·) →
      ((insEntry k v l).map Prod.fst).Chain' (· < ·)
  | [], _ => by simp [insEntry]
  | (k', v') :: rest, h => by
      rw [List.map_cons, List.chain'_cons'] at h
      obtain ⟨hhd, htl⟩ := h
      by_cases h1 : k < k'
      · simp only [insEntry, if_pos h1, List.map_cons]
        rw [List.chain'_cons]
        exact ⟨h1, List.chain'_cons'.mpr ⟨hhd, htl⟩⟩
      · by_cases h2 : k = k'
        · subst h2
          simp only [insEntry, if_neg h1, if_pos rfl, List.map_cons]
          exact List.chain'_cons'.mpr ⟨hhd, htl⟩
        · simp only [insEntry, if_neg h1, if_neg h2, List.map_cons]
          refine List.chain'_cons'.mpr ⟨?_, insEntry_sorted k v rest htl⟩
          intro y hy
          rw [insEntry_head] at hy
          obtain rfl : min k ((rest.map Prod.fst).headD k) = y := by
            simpa using hy
          have hk : k' < k := by omega
          cases hr : rest.map Prod.fst with
          | nil => simp [hr]; omega
          | cons a tl =>
              have := hhd a (by simp [hr])
              simp [hr]
              omega

theorem insEntry_append_right {V : Type} (k : Nat) (v : V) :
    ∀ (A B : List (Nat × V)), (∀ a ∈ A.map Prod.fst, a < k) →
      insEntry k v (A ++ B) = A ++ insEntry k v B
  | [], B, _ => by simp
  | (k', v') :: A', B, hA => by
      have hk : k' < k := hA k' (by simp)
      have h1 : ¬ k < k' := by omega
      have h2 : ¬ k = k' := by omega
      simp only [List.cons_append, insEntry, if_neg h1, if_neg h2]
      exact congrArg (List.cons (k', v'))
        (insEntry_append_right k v A' B (fun a ha => hA a (by simp [ha])))

theorem insEntry_prepend {V : Type} (k : Nat) (v : V) (B : List (Nat × V))
    (hB : ∀ b ∈ B.map Prod.fst, k < b) :
    insEntry k v B = (k, v) :: B := by
  cases B with
  | nil => rfl
  | cons e rest =>
      obtain ⟨k', v'⟩ := e
      have : k < k' := hB k' (by simp)
      simp [insEntry, this]

theorem insEntry_append_left {V : Type} (k : Nat) (v : V) :
    ∀ (A B : List (Nat × V)), (∀ b ∈ B.map Prod.fst, k < b) →
      insEntry k v (A ++ B) = insEntry k v A ++ B
  | [], B, hB => by
      simp [insEntry, insEntry_prepend k v B hB]
  | (k', v') :: A', B, hB => by
      by_cases h1 : k < k'
      · simp [insEntry, h1]
      · by_cases h2 : k = k'
        · simp [insEntry, h1, h2]
        · simp only [List.cons_append, insEntry, if_neg h1, if_neg h2]
          exact congrArg (List.cons (k', v')) (insEntry_append_left k v A' B hB)

theorem findEntry_eq_none {V : Type} (k : Nat) :
    ∀ l : List (Nat × V), findEntry k l = none ↔ k ∉ l.map Prod.fst
  | [] => by simp [findEntry]
  | (k', v') :: rest => by
      by_cases h : k = k'
      · subst h
        simp [findEntry]
      · simp [findEntry, h, findEntry_eq_none k rest]

theorem findEntry_append_of_none {V : Type} (k : Nat) {A : List (Nat × V)}
    (B : List (Nat × V)) (h : findEntry k A = none) :
    findEntry k (A ++ B) = findEntry k B := by
  induction A with
  | nil => simp
  | cons e A' ih =>
      obtain ⟨k', v'⟩ := e
      by_cases hk : k = k'
      · simp [findEntry, hk] at h
      · simp only [findEntry, if_neg hk] at h
        simp only [List.cons_append, findEntry, if_neg hk]
        exact ih h

theorem findEntry_append_some {V : Type} (k : Nat) {A : List (Nat × V)}
    (B : List (Nat × V)) {v : V} (h : findEntry k A = some v) :
    findEntry k (A ++ B) = some v := by
  induction A with
  | nil => simp [findEntry] at h
  | cons e A' ih =>
      obtain ⟨k', v'⟩ := e
      by_cases hk : k = k'
      · simp only [findEntry, if_pos hk] at h
        simp only [List.cons_append, findEntry, if_pos hk]
        exact h
      · simp only [findEntry, if_neg hk] at h
        simp only [List.cons_append, findEntry, if_neg hk]
        exact ih h

theorem findEntry_insEntry {V : Type} (k k' : Nat) (v' : V) :
    ∀ l : List (Nat × V),
      findEntry k (insEntry k' v' l) =
        if k = k' then some v' else findEntry k l
  | [] => by
      by_cases h : k = k' <;> simp [insEntry, findEntry, h]
  | (k2, v2) :: rest => by
      by_cases h1 : k' < k2
      · by_cases h : k = k' <;> simp [insEntry, findEntry, h1, h]
      · by_cases h2 : k' = k2
        · subst h2
          by_cases h : k = k' <;> simp [insEntry, findEntry, h1, h]
        · simp only [insEntry, if_neg h1, if_neg h2]
          by_cases h : k = k2
          · subst h
            have : ¬ k = k' := fun hc => h2 hc.symm
            simp [findEntry, this]
          · simp only [findEntry, if_neg h]
            exact findEntry_insEntry k k' v' rest

theorem rmEntry_sublist {V : Type} (k : Nat) :
    ∀ l : List (Nat × V), List.Sublist (rmEntry k l) l
  | [] => by simp [rmEntry]
  | (k', v') :: rest => by
      by_cases h : k = k'
      · simp only [rmEntry, if_pos h]
        exact List.Sublist.cons _ (List.Sublist.refl _)
      · simp only [rmEntry, if_neg h]
        exact List.Sublist.cons₂ _ (rmEntry_sublist k rest)

theorem rmEntry_length_of_mem {V : Type} (k : Nat) :
    ∀ l : List (Nat × V), k ∈ l.map Prod.fst →
      (rmEntry k l).length + 1 = l.length
  | [], h => by simp at h
  | (k', v') :: rest, h => by
      by_cases hk : k = k'
      · simp [rmEntry, hk]
      · simp only [List.map_cons, List.mem_cons] at h
        rcases h with rfl | h
        · exact absurd rfl hk
        · simp only [rmEntry, if_neg hk, List.length_cons]
          rw [← rmEntry_length_of_mem k rest h]

theorem rmEntry_append_left {V : Type} (k : Nat) :
    ∀ (A B : List (Nat × V)), k ∈ A.map Prod.fst →
      rmEntry k (A ++ B) = rmEntry k A ++ B
  | [], B, h => by simp at h
  | (k', v') :: A', B, h => by
      by_cases hk : k = k'
      · simp [rmEntry, hk]
      · simp only [List.map_cons, List.mem_cons] at h
        rcases h with rfl | h
        · exact absurd rfl hk
        · simp only [List.cons_append, rmEntry, if_neg hk]
          exact congrArg (List.cons (k', v')) (rmEntry_append_left k A' B h)

theorem rmEntry_append_right {V : Type} (k : Nat) :
    ∀ (A B : List (Nat × V)), k ∉ A.map Prod.fst →
      rmEntry k (A ++ B) = A ++ rmEntry k B
  | [], B, _ => by simp
  | (k', v') :: A', B, h => by
      simp only [List.map_cons, List.mem_cons] at h
      push_neg at h
      simp only [List.cons_append, rmEntry, if_neg h.1]
      exact congrArg (List.cons (k', v')) (rmEntry_append_right k A' B h.2)

theorem rmEntry_insEntry {V : Type} (k : Nat) (v : V) :
    ∀ l : List (Nat × V), k ∉ l.map Prod.fst →
      rmEntry k (insEntry k v l) = l
  | [], _ => by simp [insEntry, rmEntry]
  | (k', v') :: rest, h => by
      simp only [List.map_cons, List.mem_cons] at h
      push_neg at h
      by_cases h1 : k < k'
      · simp [insEntry, h1, rmEntry, h.1]
      · simp only [insEntry, if_neg h1, if_neg h.1, rmEntry]
        rw [rmEntry_insEntry k v rest h.2]

theorem entryListL_append {V : Type} :
    ∀ A B : List (Nat × bnode V),
      entryListL (A ++ B) = entryListL A ++ entryListL B
  | [], B => by simp [entryListL]
  | (k, c) :: A', B => by
      simp only [List.cons_append, entryListL, List.append_assoc]
      exact congrArg (entryList c ++ ·) (entryListL_append A' B)

/-! ## Node reassembly helpers -/

theorem tagsB_iff {V : Type} {cs : List (Nat × bnode V)} :
    tagsB cs = true ↔ ∀ q ∈ cs, (keyList q.2).head? = some q.1 := by
  simp [tagsB, List.all_eq_true]

theorem wfL_iff {V : Type} {m : Nat} {cs : List (Nat × bnode V)} :
    wfL m cs = true ↔ ∀ q ∈ cs, wfB m ((m + 1) / 2) q.2 = true := by
  induction cs with
  | nil => simp [wfL]
  | cons q rest ih =>
      obtain ⟨kq, cq⟩ := q
      simp [wfL, Bool.and_eq_true, ih, List.forall_mem_cons]

/-- For a nonempty well-formed node, the separator computed by `mkTag` is
the node's first stored key. -/
theorem tag_correct {V : Type} {m lb : Nat} {t : bnode V} (h : wfB m lb t = true)
    (hne : entryList t ≠ []) : (keyList t).head? = some (lowKey t) := by
  cases t with
  | leaf es =>
      cases es with
      | nil => simp [entryList] at hne
      | cons e es' =>
          obtain ⟨ke, ve⟩ := e
          simp [keyList, entryList, lowKey]
  | internal cs =>
      obtain ⟨-, -, hone, hwl, htags, -, -⟩ := wfB_internal_iff.mp h
      cases cs with
      | nil => simp at hone
      | cons q rest =>
          obtain ⟨kq, cq⟩ := q
          have htag := tagsB_mem htags (kq, cq) (by simp)
          have hqne : entryList cq ≠ [] := by
            intro hnil
            simp [keyList, hnil] at htag
          simp only [keyList, entryList, entryListL, List.map_append, lowKey,
            List.map_cons, List.headD_cons]
          rw [List.head?_append_of_ne_nil _ (by simpa using hqne)]
          simpa [keyList] using htag

theorem keyList_mem_of_child {V : Type} {cs : List (Nat × bnode V)}
    {q : Nat × bnode V} (hq : q ∈ cs) {a : Nat} (ha : a ∈ keyList q.2) :
    a ∈ (entryListL cs).map Prod.fst := by
  induction cs with
  | nil => simp at hq
  | cons p rest ih =>
      obtain ⟨kp, cp⟩ := p
      simp only [entryListL, List.map_append, List.mem_append]
      rcases List.mem_cons.mp hq with rfl | hq
      · left
        simpa [keyList] using ha
      · right
        exact ih hq

theorem sepChainB_of_sorted {V : Type} :
    ∀ cs : List (Nat × bnode V), (∀ q ∈ cs, entryList q.2 ≠ []) →
      tagsB cs = true → ((entryListL cs).map Prod.fst).Chain' (· < ·) →
      sepChainB cs = true
  | [], _, _, _ => rfl
  | [p], _, _, _ => rfl
  | p :: q :: rest, hne, ht, hs => by
      simp only [sepChainB, Bool.and_eq_true]
      constructor
      · rw [allLtB_iff]
        intro a ha
        have hpair := List.chain'_iff_pairwise.mp hs
        rw [entryListL, List.map_append] at hpair
        have hcross := (List.pairwise_append.mp hpair).2.2
        have haq : a ∈ (entryList p.2).map Prod.fst := by
          simpa [keyList] using ha
        have htagq := tagsB_mem ht q (by simp)
        have hq1 : q.1 ∈ (entryListL (q :: rest)).map Prod.fst :=
          keyList_mem_of_child (by simp) (mem_of_head_eq htagq)
        exact hcross a haq q.1 hq1
      · refine sepChainB_of_sorted (q :: rest)
          (fun r hr => hne r (by simp [hr])) (tagsB_tail ht) ?_
        rw [entryListL, List.map_append] at hs
        exact (List.chain'_append.mp hs).2.1

theorem heightBL_eq_of_mem {V : Type} {cs : List (Nat × bnode V)}
    (h : heightsB cs = true) {r : Nat × bnode V} (hr : r ∈ cs) :
    heightB r.2 = heightBL cs := by
  simp only [heightsB, List.all_eq_true] at h
  exact beq_iff_eq.mp (h r hr)

theorem heights_mem {V : Type} {cs : List (Nat × bnode V)}
    (h : heightsB cs = true) {q r : Nat × bnode V} (hq : q ∈ cs) (hr : r ∈ cs) :
    heightB q.2 = heightB r.2 := by
  rw [heightBL_eq_of_mem h hq, heightBL_eq_of_mem h hr]

theorem heightsB_of_all {V : Type} {cs : List (Nat × bnode V)} (n : Nat)
    (h : ∀ q ∈ cs, heightB q.2 = n) : heightsB cs = true := by
  simp only [heightsB, List.all_eq_true]
  intro q hq
  rw [beq_iff_eq, h q hq]
  cases cs with
  | nil => simp at hq
  | cons p rest =>
      simp only [heightBL]
      rw [h p (by simp)]

/-- Any nonempty internal node whose children's heights each match a height
found in another uniformly deep child list has that list's height. -/
theorem heightB_internal_eq {V : Type} {cs cs2 : List (Nat × bnode V)}
    (hne : cs2 ≠ []) (hh : heightsB cs = true)
    (hsub : ∀ q ∈ cs2, ∃ r ∈ cs, heightB q.2 = heightB r.2) :
    heightB (.internal cs2) = heightB (.internal cs) := by
  cases cs2 with
  | nil => exact absurd rfl hne
  | cons c0 tl =>
      obtain ⟨r, hr, he⟩ := hsub c0 (by simp)
      show 1 + heightB c0.2 = 1 + heightBL cs
      rw [he, heightBL_eq_of_mem hh hr]

/-- Assemble a well-formed internal node from well-formed, correctly tagged,
globally sorted children of one kind. -/
theorem wfB_internal_build {V : Type} {m lb : Nat} {cs : List (Nat × bnode V)}
    (hm : 1 ≤ m) (hlb : lb ≤ cs.length) (hlen : cs.length ≤ m)
    (hone : 1 ≤ cs.length)
    (hw : ∀ q ∈ cs, wfB m ((m + 1) / 2) q.2 = true)
    (ht : ∀ q ∈ cs, (keyList q.2).head? = some q.1)
    (hs : ((entryListL cs).map Prod.fst).Chain' (· < ·))
    (hk : ∀ q ∈ cs, ∀ r ∈ cs, heightB q.2 = heightB r.2) :
    wfB m lb (.internal cs) = true := by
  refine wfB_internal_iff.mpr
    ⟨hlb, hlen, hone, wfL_iff.mpr hw, tagsB_iff.mpr ht, ?_, ?_⟩
  · refine sepChainB_of_sorted cs ?_ (tagsB_iff.mpr ht) hs
    intro q hq
    exact entryList_ne_nil (b := (m + 1) / 2) (by omega) (hw q hq)
  · cases cs with
    | nil => rfl
    | cons p rest =>
        exact heightsB_of_all (heightB p.2) (fun q hq => hk q hq p (by simp))

/-- The flattened entries of a bounded, well-formed child list are sorted. -/
theorem entryListL_sorted {V : Type} {m : Nat} {cs : List (Nat × bnode V)}
    (hm : 1 ≤ m) (h1 : wfL m cs = true) (ht : tagsB cs = true)
    (hs : sepChainB cs = true) (hk : heightsB cs = true)
    (hlen : cs.length ≤ m) (hone : 1 ≤ cs.length) :
    ((entryListL cs).map Prod.fst).Chain' (· < ·) := by
  have hwf : wfB m 1 (.internal cs) = true :=
    wfB_internal_iff.mpr ⟨hone, hlen, hone, h1, ht, hs, hk⟩
  simpa [keyList, entryList] using keyList_sorted hm (bnode.internal cs) 1 hwf

theorem heightsB_tail {V : Type} {q : Nat × bnode V} {rest : List (Nat × bnode V)}
    (h : heightsB (q :: rest) = true) : heightsB rest = true := by
  cases rest with
  | nil => rfl
  | cons r rest₂ =>
      refine heightsB_of_all (heightB q.2) ?_
      intro s hs
      exact heights_mem h (by simp [hs]) (by simp)

theorem entryListL_ne_nil {V : Type} {m : Nat} {cs : List (Nat × bnode V)}
    (hm : 1 ≤ m) (hone : cs ≠ [])
    (hw : ∀ q ∈ cs, wfB m ((m + 1) / 2) q.2 = true) :
    entryListL cs ≠ [] := by
  cases cs with
  | nil => exact absurd rfl hone
  | cons q rest =>
      have hq := entryList_ne_nil (b := (m + 1) / 2) (by omega) (hw q (by simp))
      obtain ⟨kq, cq⟩ := q
      simp only [entryListL]
      intro hcon
      exact hq (List.append_eq_nil.mp hcon).1

/-- Every key stored under a child list starting with separator `k2` is at
least `k2`. -/
theorem flat_keys_ge {V : Type} {m : Nat} (hm : 1 ≤ m) (k2 : Nat) (c2 : bnode V)
    (rest : List (Nat × bnode V)) (hw : wfL m ((k2, c2) :: rest) = true)
    (ht : tagsB ((k2, c2) :: rest) = true)
    (hs : ((entryListL ((k2, c2) :: rest)).map Prod.fst).Chain' (· < ·)) :
    ∀ b ∈ (entryListL ((k2, c2) :: rest)).map Prod.fst, k2 ≤ b := by
  have hne : entryList c2 ≠ [] :=
    entryList_ne_nil (b := (m + 1) / 2) (by omega) (wfL_head hw)
  have hhead : ((entryListL ((k2, c2) :: rest)).map Prod.fst).head? = some k2 := by
    simp only [entryListL, List.map_append]
    rw [List.head?_append_of_ne_nil _ (by simpa using hne)]
    simpa [keyList] using tagsB_mem ht (k2, c2) (by simp)
  exact head_le_of_sorted hs hhead

/-- The inductive core of §4.2 insert: the replacement pairs returned by
`ins` are one or two well-formed, correctly tagged nodes of the original
node's kind, whose concatenated entries are exactly the sorted insertion of
the new binding into the original node's entries; when the node split, both
halves meet the non-root occupancy minimum. -/
theorem ins_spec {V : Type} {m : Nat} (hm : 3 ≤ m) (k : Nat) (v : V)
    (t : bnode V) :
    ∀ lb, wfB m lb t = true →
      entryListL (ins m k v t) = insEntry k v (entryList t) ∧
      (∀ q ∈ ins m k v t, wfB m (min ((m + 1) / 2) lb) q.2 = true) ∧
      (∀ q ∈ ins m k v t, (keyList q.2).head? = some q.1) ∧
      (∀ q ∈ ins m k v t, heightB q.2 = heightB t) ∧
      (1 ≤ (ins m k v t).length ∧ (ins m k v t).length ≤ 2) ∧
      (2 ≤ (ins m k v t).length →
        ∀ q ∈ ins m k v t, wfB m ((m + 1) / 2) q.2 = true) := by
  refine @ins.induct V m k v
    (fun t => ∀ lb, wfB m lb t = true →
      entryListL (ins m k v t) = insEntry k v (entryList t) ∧
      (∀ q ∈ ins m k v t, wfB m (min ((m + 1) / 2) lb) q.2 = true) ∧
      (∀ q ∈ ins m k v t, (keyList q.2).head? = some q.1) ∧
      (∀ q ∈ ins m k v t, heightB q.2 = heightB t) ∧
      (1 ≤ (ins m k v t).length ∧ (ins m k v t).length ≤ 2) ∧
      (2 ≤ (ins m k v t).length →
        ∀ q ∈ ins m k v t, wfB m ((m + 1) / 2) q.2 = true))
    (fun cs => cs ≠ [] → cs.length ≤ m → wfL m cs = true → tagsB cs = true →
      sepChainB cs = true → heightsB cs = true →
      entryListL (insL m k v cs) = insEntry k v (entryListL cs) ∧
      (∀ q ∈ insL m k v cs, wfB m ((m + 1) / 2) q.2 = true) ∧
      (∀ q ∈ insL m k v cs, (keyList q.2).head? = some q.1) ∧
      (∀ q ∈ insL m k v cs, ∀ r ∈ cs, heightB q.2 = heightB r.2) ∧
      cs.length ≤ (insL m k v cs).length ∧
      (insL m k v cs).length ≤ cs.length + 1)
    ?_ ?_ ?_ ?_ ?_ ?_ ?_ ?_ t
  · -- leaf, fits
    intro es es2 hfit lb hw
    have hfit' : (insEntry k v es).length ≤ m := hfit
    obtain ⟨hlb, hlen, hsort⟩ := wfB_leaf_iff.mp hw
    have hlen2 := insEntry_length k v es
    have hins : ins m k v (.leaf es) = [mkTag (.leaf (insEntry k v es))] := by
      simp [ins, hfit']
    have hwf2 : wfB m (min ((m + 1) / 2) lb) (.leaf (insEntry k v es)) = true := by
      refine wfB_leaf_iff.mpr ⟨?_, hfit', insEntry_sorted k v es hsort⟩
      have := min_le_right ((m + 1) / 2) lb
      omega
    rw [hins]
    refine ⟨by simp [entryListL, entryList, mkTag], ?_, ?_, ?_, by simp, by simp⟩
    · intro q hq
      obtain rfl : q = mkTag (.leaf (insEntry k v es)) := by simpa using hq
      exact hwf2
    · intro q hq
      obtain rfl : q = mkTag (.leaf (insEntry k v es)) := by simpa using hq
      exact tag_correct hwf2 (by simpa [entryList, mkTag] using insEntry_ne_nil k v es)
    · intro q hq
      obtain rfl : q = mkTag (.leaf (insEntry k v es)) := by simpa using hq
      rfl
  · -- leaf, split
    intro es es2 hfit lb hw
    have hfit' : ¬ (insEntry k v es).length ≤ m := hfit
    obtain ⟨hlb, hlen, hsort⟩ := wfB_leaf_iff.mp hw
    have hlen2 := insEntry_length k v es
    have hlen3 : (insEntry k v es).length = m + 1 := by omega
    have hsort2 := insEntry_sorted k v es hsort
    have hins : ins m k v (.leaf es) =
        [mkTag (.leaf ((insEntry k v es).take ((m + 1) / 2))),
         mkTag (.leaf ((insEntry k v es).drop ((m + 1) / 2)))] := by
      simp [ins, hfit', hlen3]
    have hTlen : ((insEntry k v es).take ((m + 1) / 2)).length = (m + 1) / 2 := by
      rw [List.length_take, hlen3]
      omega
    have hDlen : ((insEntry k v es).drop ((m + 1) / 2)).length =
        m + 1 - (m + 1) / 2 := by
      rw [List.length_drop, hlen3]
    have hwfT : wfB m ((m + 1) / 2) (.leaf ((insEntry k v es).take ((m + 1) / 2)))
        = true := by
      refine wfB_leaf_iff.mpr ⟨by omega, by omega, ?_⟩
      rw [List.map_take]
      exact hsort2.sublist (List.take_sublist _ _)
    have hwfD : wfB m ((m + 1) / 2) (.leaf ((insEntry k v es).drop ((m + 1) / 2)))
        = true := by
      refine wfB_leaf_iff.mpr ⟨by omega, by omega, ?_⟩
      rw [List.map_drop]
      exact hsort2.sublist (List.drop_sublist _ _)
    have hTne : (insEntry k v es).take ((m + 1) / 2) ≠ [] := by
      rw [← List.length_pos_iff_ne_nil]
      omega
    have hDne : (insEntry k v es).drop ((m + 1) / 2) ≠ [] := by
      rw [← List.length_pos_iff_ne_nil]
      omega
    rw [hins]
    refine ⟨?_, ?_, ?_, ?_, by simp, ?_⟩
    · simp [entryListL, entryList, mkTag, List.take_append_drop]
    · intro q hq
      have hmin := min_le_left ((m + 1) / 2) lb
      rcases List.mem_cons.mp hq with rfl | hq
      · exact wfB_mono hmin hwfT
      · obtain rfl : q = mkTag (.leaf ((insEntry k v es).drop ((m + 1) / 2))) := by
          simpa using hq
        exact wfB_mono hmin hwfD
    · intro q hq
      rcases List.mem_cons.mp hq with rfl | hq
      · exact tag_correct hwfT (by simpa [entryList, mkTag] using hTne)
      · obtain rfl : q = mkTag (.leaf ((insEntry k v es).drop ((m + 1) / 2))) := by
          simpa using hq
        exact tag_correct hwfD (by simpa [entryList, mkTag] using hDne)
    · intro q hq
      rcases List.mem_cons.mp hq with rfl | hq
      · rfl
      · obtain rfl : q = mkTag (.leaf ((insEntry k v es).drop ((m + 1) / 2))) := by
          simpa using hq
        rfl
    · intro _ q hq
      rcases List.mem_cons.mp hq with rfl | hq
      · exact hwfT
      · obtain rfl : q = mkTag (.leaf ((insEntry k v es).drop ((m + 1) / 2))) := by
          simpa using hq
        exact hwfD
  · -- internal, fits
    intro cs cs2 hfit ih lb hw
    have hfit' : (insL m k v cs).length ≤ m := hfit
    obtain ⟨hlb, hlen, hone, hwl, htags, hsep, hkind⟩ := wfB_internal_iff.mp hw
    have hne : cs ≠ [] := by
      intro h
      rw [h] at hone
      simp at hone
    obtain ⟨q1, q2, q3, q4, q5, q6⟩ := ih hne hlen hwl htags hsep hkind
    have hins : ins m k v (.internal cs) = [mkTag (.internal (insL m k v cs))] := by
      simp [ins, hfit']
    have hsflat : ((entryListL (insL m k v cs)).map Prod.fst).Chain' (· < ·) := by
      rw [q1]
      exact insEntry_sorted k v _
        (entryListL_sorted (by omega) hwl htags hsep hkind hlen hone)
    obtain ⟨r0, hr0⟩ : ∃ r, r ∈ cs := by
      cases cs with
      | nil => exact absurd rfl hne
      | cons a l => exact ⟨a, by simp⟩
    have hwf2 : wfB m (min ((m + 1) / 2) lb) (.internal (insL m k v cs)) = true := by
      refine wfB_internal_build (by omega) ?_ hfit' (by omega) q2 q3 hsflat ?_
      · have h1 := min_le_right ((m + 1) / 2) lb
        omega
      · intro q hq r hr
        rw [q4 q hq r0 hr0, ← q4 r hr r0 hr0]
    have hlne : entryListL (insL m k v cs) ≠ [] := by
      rw [q1]
      exact insEntry_ne_nil k v _
    rw [hins]
    refine ⟨by simpa [entryListL, entryList, mkTag] using q1, ?_, ?_, ?_,
      by simp, by simp⟩
    · intro q hq
      obtain rfl : q = mkTag (.internal (insL m k v cs)) := by simpa using hq
      exact hwf2
    · intro q hq
      obtain rfl : q = mkTag (.internal (insL m k v cs)) := by simpa using hq
      exact tag_correct hwf2 (by simpa [entryList, mkTag] using hlne)
    · intro q hq
      obtain rfl : q = mkTag (.internal (insL m k v cs)) := by simpa using hq
      refine heightB_internal_eq ?_ hkind ?_
      · intro hnil
        have hz : (insL m k v cs).length = 0 := by
          rw [hnil]
          rfl
        omega
      · intro s hs
        exact ⟨r0, hr0, q4 s hs r0 hr0⟩
  · -- internal, split
    intro cs cs2 hfit ih lb hw
    have hfit' : ¬ (insL m k v cs).length ≤ m := hfit
    obtain ⟨hlb, hlen, hone, hwl, htags, hsep, hkind⟩ := wfB_internal_iff.mp hw
    have hne : cs ≠ [] := by
      intro h
      rw [h] at hone
      simp at hone
    obtain ⟨q1, q2, q3, q4, q5, q6⟩ := ih hne hlen hwl htags hsep hkind
    have hlen3 : (insL m k v cs).length = m + 1 := by omega
    have hins : ins m k v (.internal cs) =
        [mkTag (.internal ((insL m k v cs).take ((m + 1) / 2))),
         mkTag (.internal ((insL m k v cs).drop ((m + 1) / 2)))] := by
      simp [ins, hfit', hlen3]
    have hsflat : ((entryListL (insL m k v cs)).map Prod.fst).Chain' (· < ·) := by
      rw [q1]
      exact insEntry_sorted k v _
        (entryListL_sorted (by omega) hwl htags hsep hkind hlen hone)
    obtain ⟨r0, hr0⟩ : ∃ r, r ∈ cs := by
      cases cs with
      | nil => exact absurd rfl hne
      | cons a l => exact ⟨a, by simp⟩
    have hTD := List.take_append_drop ((m + 1) / 2) (insL m k v cs)
    have hsplit : entryListL ((insL m k v cs).take ((m + 1) / 2)) ++
        entryListL ((insL m k v cs).drop ((m + 1) / 2)) =
        entryListL (insL m k v cs) := by
      rw [← entryListL_append, hTD]
    have hTlen : ((insL m k v cs).take ((m + 1) / 2)).length = (m + 1) / 2 := by
      rw [List.length_take, hlen3]
      omega
    have hDlen : ((insL m k v cs).drop ((m + 1) / 2)).length =
        m + 1 - (m + 1) / 2 := by
      rw [List.length_drop, hlen3]
    have hsT : ((entryListL ((insL m k v cs).take ((m + 1) / 2))).map
        Prod.fst).Chain' (· < ·) := by
      have := hsflat
      rw [← hsplit, List.map_append, List.chain'_append] at this
      exact this.1
    have hsD : ((entryListL ((insL m k v cs).drop ((m + 1) / 2))).map
        Prod.fst).Chain' (· < ·) := by
      have := hsflat
      rw [← hsplit, List.map_append, List.chain'_append] at this
      exact this.2.1
    have hkq : ∀ q ∈ insL m k v cs, ∀ r ∈ insL m k v cs,
        heightB q.2 = heightB r.2 := by
      intro q hq r hr
      rw [q4 q hq r0 hr0, ← q4 r hr r0 hr0]
    have hwfT : wfB m ((m + 1) / 2)
        (.internal ((insL m k v cs).take ((m + 1) / 2))) = true := by
      refine wfB_internal_build (by omega) (by omega) (by omega) (by omega)
        ?_ ?_ hsT ?_
      · intro q hq
        exact q2 q (List.mem_of_mem_take hq)
      · intro q hq
        exact q3 q (List.mem_of_mem_take hq)
      · intro q hq r hr
        exact hkq q (List.mem_of_mem_take hq) r (List.mem_of_mem_take hr)
    have hwfD : wfB m ((m + 1) / 2)
        (.internal ((insL m k v cs).drop ((m + 1) / 2))) = true := by
      refine wfB_internal_build (by omega) (by omega) (by omega) (by omega)
        ?_ ?_ hsD ?_
      · intro q hq
        exact q2 q (List.mem_of_mem_drop hq)
      · intro q hq
        exact q3 q (List.mem_of_mem_drop hq)
      · intro q hq r hr
        exact hkq q (List.mem_of_mem_drop hq) r (List.mem_of_mem_drop hr)
    have hTne : entryListL ((insL m k v cs).take ((m + 1) / 2)) ≠ [] := by
      refine entryListL_ne_nil (m := m) (by omega) ?_ ?_
      · rw [← List.length_pos_iff_ne_nil]
        omega
      · intro q hq
        exact q2 q (List.mem_of_mem_take hq)
    have hDne : entryListL ((insL m k v cs).drop ((m + 1) / 2)) ≠ [] := by
      refine entryListL_ne_nil (m := m) (by omega) ?_ ?_
      · rw [← List.length_pos_iff_ne_nil]
        omega
      · intro q hq
        exact q2 q (List.mem_of_mem_drop hq)
    rw [hins]
    refine ⟨?_, ?_, ?_, ?_, by simp, ?_⟩
    · simp only [entryListL, entryList, mkTag, List.append_nil]
      rw [hsplit, q1]
    · intro q hq
      have hmin := min_le_left ((m + 1) / 2) lb
      rcases List.mem_cons.mp hq with rfl | hq
      · exact wfB_mono hmin hwfT
      · obtain rfl :
            q = mkTag (.internal ((insL m k v cs).drop ((m + 1) / 2))) := by
          simpa using hq
        exact wfB_mono hmin hwfD
    · intro q hq
      rcases List.mem_cons.mp hq with rfl | hq
      · exact tag_correct hwfT (by simpa [entryList, mkTag] using hTne)
      · obtain rfl :
            q = mkTag (.internal ((insL m k v cs).drop ((m + 1) / 2))) := by
          simpa using hq
        exact tag_correct hwfD (by simpa [entryList, mkTag] using hDne)
    · intro q hq
      rcases List.mem_cons.mp hq with rfl | hq
      · refine heightB_internal_eq ?_ hkind ?_
        · rw [← List.length_pos_iff_ne_nil]
          omega
        · intro s hs
          exact ⟨r0, hr0, q4 s (List.mem_of_mem_take hs) r0 hr0⟩
      · obtain rfl :
            q = mkTag (.internal ((insL m k v cs).drop ((m + 1) / 2))) := by
          simpa using hq
        refine heightB_internal_eq ?_ hkind ?_
        · rw [← List.length_pos_iff_ne_nil]
          omega
        · intro s hs
          exact ⟨r0, hr0, q4 s (List.mem_of_mem_drop hs) r0 hr0⟩
    · intro _ q hq
      rcases List.mem_cons.mp hq with rfl | hq
      · exact hwfT
      · obtain rfl :
            q = mkTag (.internal ((insL m k v cs).drop ((m + 1) / 2))) := by
          simpa using hq
        exact hwfD
  · -- child list: nil (excluded)
    intro hne
    exact absurd rfl hne
  · -- child list: singleton
    intro k1 c ih _ hlen hwl htags hsep hkind
    have hwc : wfB m ((m + 1) / 2) c = true := wfL_head hwl
    obtain ⟨p1, p2, p3, p4, p5, p6⟩ := ih ((m + 1) / 2) hwc
    have heq : insL m k v [(k1, c)] = ins m k v c := rfl
    rw [heq]
    refine ⟨by simpa [entryListL] using p1, ?_, p3, ?_,
      by simp only [List.length_cons, List.length_nil]; omega,
      by simp only [List.length_cons, List.length_nil]; omega⟩
    · intro q hq
      have := p2 q hq
      simpa using this
    · intro q hq r hr
      obtain rfl : r = (k1, c) := by simpa using hr
      exact p4 q hq
  · -- child list: pair, descend into first child
    intro k1 c1 k2 c2 rest hklt ih _ hlen hwl htags hsep hkind
    have hwc1 : wfB m ((m + 1) / 2) c1 = true := wfL_head hwl
    obtain ⟨p1, p2, p3, p4, p5, p6⟩ := ih ((m + 1) / 2) hwc1
    have heq : insL m k v ((k1, c1) :: (k2, c2) :: rest) =
        ins m k v c1 ++ (k2, c2) :: rest := by
      simp [insL, hklt]
    have hsrest : ((entryListL ((k2, c2) :: rest)).map Prod.fst).Chain' (· < ·) :=
      entryListL_sorted (m := m) (by omega) (wfL_tail hwl)
        (tagsB_tail htags) (sepChainB_tail hsep) (heightsB_tail hkind)
        (by simp only [List.length_cons] at hlen ⊢; omega) (by simp)
    have hge := flat_keys_ge (m := m) (by omega) k2 c2 rest (wfL_tail hwl)
      (tagsB_tail htags) hsrest
    rw [heq]
    refine ⟨?_, ?_, ?_, ?_, ?_⟩
    · rw [entryListL_append, p1]
      have hsh : entryListL ((k1, c1) :: (k2, c2) :: rest) =
          entryList c1 ++ entryListL ((k2, c2) :: rest) := rfl
      rw [hsh, insEntry_append_left k v _ _ ?_]
      intro b hb
      have := hge b hb
      omega
    · intro q hq
      rcases List.mem_append.mp hq with hq | hq
      · have := p2 q hq
        simpa using this
      · exact wfL_mem (wfL_tail hwl) q hq
    · intro q hq
      rcases List.mem_append.mp hq with hq | hq
      · exact p3 q hq
      · exact tagsB_mem (tagsB_tail htags) q hq
    · intro q hq r hr
      rcases List.mem_append.mp hq with hq | hq
      · rw [p4 q hq]
        exact heights_mem hkind (List.mem_cons_self _ _) hr
      · exact heights_mem hkind (by simp [hq]) hr
    · rw [List.length_append]
      simp only [List.length_cons]
      omega
  · -- child list: pair, descend beyond the first child
    intro k1 c1 k2 c2 rest hnlt ih _ hlen hwl htags hsep hkind
    obtain ⟨q1, q2, q3, q4, q5, q6⟩ := ih (by simp)
      (by simp only [List.length_cons] at hlen ⊢; omega)
      (wfL_tail hwl) (tagsB_tail htags) (sepChainB_tail hsep)
      (heightsB_tail hkind)
    have heq : insL m k v ((k1, c1) :: (k2, c2) :: rest) =
        (k1, c1) :: insL m k v ((k2, c2) :: rest) := by
      simp [insL, hnlt]
    rw [heq]
    refine ⟨?_, ?_, ?_, ?_, ?_⟩
    · have hlt : ∀ a ∈ (entryListL ((k1, c1) :: (k2, c2) :: rest)).map Prod.fst,
          True := fun _ _ => trivial
      have hlt1 : ∀ a ∈ (entryList c1).map Prod.fst, a < k := by
        intro a ha
        have hall : allLtB (keyList c1) k2 = true := by
          simp only [sepChainB, Bool.and_eq_true] at hsep
          exact hsep.1
        have := (allLtB_iff _ _).mp hall a (by simpa [keyList] using ha)
        omega
      have hsh : entryListL ((k1, c1) :: (k2, c2) :: rest) =
          entryList c1 ++ entryListL ((k2, c2) :: rest) := rfl
      have hsh2 : entryListL ((k1, c1) :: insL m k v ((k2, c2) :: rest)) =
          entryList c1 ++ entryListL (insL m k v ((k2, c2) :: rest)) := rfl
      rw [hsh2, q1, hsh, insEntry_append_right k v _ _ hlt1]
    · intro q hq
      rcases List.mem_cons.mp hq with rfl | hq
      · exact wfL_head hwl
      · exact q2 q hq
    · intro q hq
      rcases List.mem_cons.mp hq with rfl | hq
      · exact tagsB_mem htags (k1, c1) (by simp)
      · exact q3 q hq
    · intro q hq r hr
      rcases List.mem_cons.mp hq with rfl | hq
      · exact heights_mem hkind (by simp) hr
      · rw [q4 q hq (k2, c2) (by simp)]
        exact heights_mem hkind (by simp) hr
    · simp only [List.length_cons] at q5 q6 ⊢
      omega

/-- §4.2 insert at the root preserves whole-tree well-formedness and
performs exactly the sorted insertion (replacing on equal key) on the stored
entries. -/
theorem insert_spec {V : Type} {m : Nat} (hm : 3 ≤ m) (k : Nat) (v : V)
    (t : bnode V) (hw : wfRoot m t = true) :
    wfRoot m (insert m k v t) = true ∧
      entryList (insert m k v t) = insEntry k v (entryList t) := by
  obtain ⟨lb, hlb2, hwb⟩ : ∃ lb, (2 ≤ lb ∨ isLeafB t = true) ∧ wfB m lb t = true := by
    cases t with
    | leaf es => exact ⟨0, Or.inr rfl, hw⟩
    | internal cs => exact ⟨2, Or.inl le_rfl, hw⟩
  obtain ⟨p1, p2, p3, p4, p5, p6⟩ := ins_spec hm k v t lb hwb
  have hsort : (keyList t).Chain' (· < ·) := keyList_sorted (by omega) t lb hwb
  rcases hl : ins m k v t with _ | ⟨p, _ | ⟨q, _ | ⟨r, rest⟩⟩⟩
  · rw [hl] at p5
    simp at p5
  · -- single replacement node: it becomes the root
    obtain ⟨kp, tp⟩ := p
    have hins : insert m k v t = tp := by
      simp [insert, hl]
    have hents : entryList tp = insEntry k v (entryList t) := by
      have := p1
      rw [hl] at this
      simpa [entryListL] using this
    have hwtp : wfB m (min ((m + 1) / 2) lb) tp = true := by
      have := p2 (kp, tp)
      rw [hl] at this
      exact this (by simp)
    rw [hins]
    refine ⟨?_, hents⟩
    cases htp : tp with
    | leaf es =>
        rw [htp] at hwtp
        exact wfB_mono (Nat.zero_le _) hwtp
    | internal cs =>
        rw [htp] at hwtp
        have hh : heightB tp = heightB t := by
          have := p4 (kp, tp)
          rw [hl] at this
          exact this (by simp)
        have h2lb : 2 ≤ lb := by
          rcases hlb2 with h | h
          · exact h
          · exfalso
            cases t with
            | leaf es =>
                rw [htp] at hh
                simp [heightB] at hh
            | internal cs2 => simp [isLeafB] at h
        have hmin : 2 ≤ min ((m + 1) / 2) lb := by
          have h2 : 2 ≤ (m + 1) / 2 := by omega
          omega
        exact wfB_mono hmin hwtp
  · -- the root split: a new root is created over the two halves
    obtain ⟨kp, tp⟩ := p
    obtain ⟨kq, tq⟩ := q
    have hins : insert m k v t = .internal [(kp, tp), (kq, tq)] := by
      simp [insert, hl]
    have hall : ∀ s ∈ ins m k v t, wfB m ((m + 1) / 2) s.2 = true := by
      apply p6
      rw [hl]
      simp
    have hents : entryListL [(kp, tp), (kq, tq)] = insEntry k v (entryList t) := by
      rw [← hl]
      exact p1
    rw [hins]
    constructor
    · refine wfB_internal_build (by omega) (by simp) (by simp; omega) (by simp)
        ?_ ?_ ?_ ?_
      · intro s hs
        apply hall
        rw [hl]
        exact hs
      · intro s hs
        have := p3 s
        rw [hl] at this
        exact this hs
      · rw [hents]
        exact insEntry_sorted k v _ hsort
      · intro s hs x hx
        have h4 := p4
        rw [hl] at h4
        rw [h4 s hs, h4 x hx]
    · simpa [entryList] using hents
  · rw [hl] at p5
    simp at p5

/-- §4.2 lookup returns exactly the binding stored for the key: it equals
the linear search through the tree's in-order entries. -/
theorem lookup_spec {V : Type} {m : Nat} (hm : 3 ≤ m) (k : Nat) (t : bnode V) :
    ∀ lb, wfB m lb t = true → lookup k t = findEntry k (entryList t) := by
  refine @lookup.induct V k
    (fun t => ∀ lb, wfB m lb t = true → lookup k t = findEntry k (entryList t))
    (fun cs => cs.length ≤ m → wfL m cs = true → tagsB cs = true →
      sepChainB cs = true → heightsB cs = true →
      lookupL k cs = findEntry k (entryListL cs))
    ?_ ?_ ?_ ?_ ?_ ?_ ?_ ?_ t
  · intro es lb _
    rfl
  · intro cs ih lb hw
    obtain ⟨-, hlen, -, hwl, htags, hsep, hkind⟩ := wfB_internal_iff.mp hw
    simpa [lookup, entryList] using ih hlen hwl htags hsep hkind
  · intro _ _ _ _ _
    rfl
  · -- singleton child, key below its separator: NotFound
    intro k1 c hklt hlen hwl htags hsep hkind
    have hwc : wfB m ((m + 1) / 2) c = true := wfL_head hwl
    have hsc : (keyList c).Chain' (· < ·) :=
      keyList_sorted (by omega) c ((m + 1) / 2) hwc
    have htag := tagsB_mem htags (k1, c) (by simp)
    have hnone : findEntry k (entryList c) = none := by
      rw [findEntry_eq_none]
      intro hmem
      have := head_le_of_sorted hsc htag k (by simpa [keyList] using hmem)
      omega
    have heq : lookupL k [(k1, c)] = none := by
      simp [lookupL, hklt]
    rw [heq]
    simp only [entryListL]
    rw [findEntry_append_of_none k _ hnone]
    rfl
  · -- singleton child, descend
    intro k1 c hnlt ih hlen hwl htags hsep hkind
    have hwc : wfB m ((m + 1) / 2) c = true := wfL_head hwl
    have heq : lookupL k [(k1, c)] = lookup k c := by
      simp [lookupL, hnlt]
    rw [heq, ih ((m + 1) / 2) hwc]
    simp [entryListL]
  · -- pair, key below the first separator: NotFound
    intro k1 c1 k2 c2 rest hklt hlen hwl htags hsep hkind
    have hsflat : ((entryListL ((k1, c1) :: (k2, c2) :: rest)).map
        Prod.fst).Chain' (· < ·) :=
      entryListL_sorted (by omega) hwl htags hsep hkind hlen (by simp)
    have hge := flat_keys_ge (m := m) (by omega) k1 c1 ((k2, c2) :: rest)
      hwl htags hsflat
    have heq : lookupL k ((k1, c1) :: (k2, c2) :: rest) = none := by
      simp [lookupL, hklt]
    rw [heq]
    symm
    rw [findEntry_eq_none]
    intro hmem
    have := hge k hmem
    omega
  · -- pair, descend into the first child
    intro k1 c1 k2 c2 rest hnlt hklt2 ih hlen hwl htags hsep hkind
    have hwc1 : wfB m ((m + 1) / 2) c1 = true := wfL_head hwl
    have hsrest : ((entryListL ((k2, c2) :: rest)).map Prod.fst).Chain' (· < ·) :=
      entryListL_sorted (m := m) (by omega) (wfL_tail hwl)
        (tagsB_tail htags) (sepChainB_tail hsep) (heightsB_tail hkind)
        (by simp only [List.length_cons] at hlen ⊢; omega) (by simp)
    have hge := flat_keys_ge (m := m) (by omega) k2 c2 rest (wfL_tail hwl)
      (tagsB_tail htags) hsrest
    have hnone2 : findEntry k (entryListL ((k2, c2) :: rest)) = none := by
      rw [findEntry_eq_none]
      intro hmem
      have := hge k hmem
      omega
    have heq : lookupL k ((k1, c1) :: (k2, c2) :: rest) = lookup k c1 := by
      simp [lookupL, hnlt, hklt2]
    rw [heq, ih ((m + 1) / 2) hwc1]
    have hsh : entryListL ((k1, c1) :: (k2, c2) :: rest) =
        entryList c1 ++ entryListL ((k2, c2) :: rest) := rfl
    rw [hsh]
    cases hf : findEntry k (entryList c1) with
    | none =>
        rw [findEntry_append_of_none k _ hf, hnone2]
    | some v =>
        rw [findEntry_append_some k _ hf]
  · -- pair, move to the next child
    intro k1 c1 k2 c2 rest hnlt hnlt2 ih hlen hwl htags hsep hkind
    have hnone1 : findEntry k (entryList c1) = none := by
      rw [findEntry_eq_none]
      intro hmem
      have hall : allLtB (keyList c1) k2 = true := by
        simp only [sepChainB, Bool.and_eq_true] at hsep
        exact hsep.1
      have := (allLtB_iff _ _).mp hall k (by simpa [keyList] using hmem)
      omega
    have heq : lookupL k ((k1, c1) :: (k2, c2) :: rest) =
        lookupL k ((k2, c2) :: rest) := by
      simp [lookupL, hnlt, hnlt2]
    rw [heq, ih (by simp only [List.length_cons] at hlen ⊢; omega)
      (wfL_tail hwl) (tagsB_tail htags) (sepChainB_tail hsep)
      (heightsB_tail hkind)]
    have hsh : entryListL ((k1, c1) :: (k2, c2) :: rest) =
        entryList c1 ++ entryListL ((k2, c2) :: rest) := rfl
    rw [hsh, findEntry_append_of_none k _ hnone1]

theorem wfRoot_empty {V : Type} (m : Nat) :
    wfRoot m (.leaf ([] : List (Nat × V))) = true := by
  simp [wfRoot, wfB, sortedKeysB]

/-- A run of inserts starting from any well-formed tree keeps the tree
well-formed, and the stored entries are the fold of sorted insertions. -/
theorem applyInserts_wf_entries {V : Type} {m : Nat} (hm : 3 ≤ m)
    (ops : List (Nat × V)) :
    ∀ t : bnode V, wfRoot m t = true →
      wfRoot m (ops.foldl (fun t q => insert m q.1 q.2 t) t) = true ∧
      entryList (ops.foldl (fun t q => insert m q.1 q.2 t) t) =
        ops.foldl (fun l q => insEntry q.1 q.2 l) (entryList t) := by
  induction ops with
  | nil =>
      intro t hw
      exact ⟨hw, rfl⟩
  | cons q ops ih =>
      intro t hw
      obtain ⟨hw1, he1⟩ := insert_spec hm q.1 q.2 t hw
      obtain ⟨hw2, he2⟩ := ih _ hw1
      refine ⟨hw2, ?_⟩
      simp only [List.foldl_cons]
      rw [he2, he1]

theorem foldl_lastWrite {V : Type} (k : Nat) :
    ∀ (ops : List (Nat × V)) (acc : Option V),
      ops.foldl (fun acc q => if q.1 = k then some q.2 else acc) acc =
        match lastWrite ops k with
        | some v => some v
        | none => acc
  | [], acc => rfl
  | q :: ops, acc => by
      have h1 := foldl_lastWrite k ops (if q.1 = k then some q.2 else acc)
      have h2 := foldl_lastWrite k ops (if q.1 = k then some q.2 else none)
      simp only [lastWrite, List.foldl_cons] at *
      rw [h1, h2]
      have hl : List.foldl (fun acc q => if q.1 = k then some q.2 else acc)
          none ops = lastWrite ops k := rfl
      rw [hl]
      cases h : lastWrite ops k with
      | some v => rfl
      | none =>
          by_cases hq : q.1 = k
          · simp [hq]
          · simp [hq]

theorem findEntry_foldl_insEntry {V : Type} (k : Nat) :
    ∀ (ops : List (Nat × V)) (l : List (Nat × V)),
      findEntry k (ops.foldl (fun l q => insEntry q.1 q.2 l) l) =
        match lastWrite ops k with
        | some v => some v
        | none => findEntry k l
  | [], l => rfl
  | q :: ops, l => by
      simp only [List.foldl_cons]
      rw [findEntry_foldl_insEntry k ops (insEntry q.1 q.2 l)]
      have hlw : lastWrite (q :: ops) k =
          match lastWrite ops k with
          | some v => some v
          | none => if q.1 = k then some q.2 else none := by
        simp only [lastWrite, List.foldl_cons]
        exact foldl_lastWrite k ops _
      rw [hlw]
      cases h : lastWrite ops k with
      | some v => rfl
      | none =>
          rw [findEntry_insEntry]
          by_cases hq : q.1 = k
          · subst hq
            simp
          · have : ¬ k = q.1 := fun hc => hq hc.symm
            simp [this, hq]

/-- C6: for every sequence of inserts applied to an initially empty tree, a
lookup of each inserted key returns exactly the value most recently inserted
for that key (last write wins for repeated keys). -/
theorem insert_lookup_last_write {V : Type} (m : Nat) (ops : List (Nat × V))
    (k : Nat) (v : V) (hm : 3 ≤ m) (hlw : lastWrite ops k = some v) :
    lookup k (applyInserts m ops) = some v := by
  obtain ⟨hw, he⟩ :=
    applyInserts_wf_entries hm ops (.leaf ([] : List (Nat × V))) (wfRoot_empty m)
  obtain ⟨lb, hwb⟩ := wfRoot_wfB hw
  rw [applyInserts, lookup_spec hm k _ lb hwb, he]
  have hbase : entryList (bnode.leaf ([] : List (Nat × V))) = [] := rfl
  rw [hbase, findEntry_foldl_insEntry k ops [], hlw]

theorem insert_lookup_last_write_witness :
    ((3 : Nat) ≤ 3 ∧
        lastWrite [(1, mkThing 1), (2, mkThing 2), (1, mkThing 7)] 1 =
          some (mkThing 7)) ∧
      lookup 1 (applyInserts 3 [(1, mkThing 1), (2, mkThing 2), (1, mkThing 7)]) =
        some (mkThing 7) :=
  ⟨⟨le_refl 3, by decide⟩,
    insert_lookup_last_write 3 [(1, mkThing 1), (2, mkThing 2), (1, mkThing 7)]
      1 (mkThing 7) (by omega) (by decide)⟩

/-! ## Underflow repair lemmas -/

theorem height_pos_internal {V : Type} (cs : List (Nat × bnode V)) :
    heightB (.internal cs) = 1 + heightBL cs := rfl

theorem keyList_leaf {V : Type} (es : List (Nat × V)) :
    keyList (.leaf es) = es.map Prod.fst := rfl

/-- §4.2 underflow repair with the right sibling keeps the combined entries
in order and yields one or two well-formed, correctly tagged nodes of the
sibling's height. -/
theorem stealOrMergeR_spec {V : Type} {m : Nat} (hm : 3 ≤ m) (a b : bnode V)
    (hsa : wfB m (nodeSize a) a = true)
    (hsize : nodeSize a + 1 = (m + 1) / 2)
    (hb : wfB m ((m + 1) / 2) b = true)
    (hh : heightB a = heightB b)
    (hcross : ∀ x ∈ keyList a, ∀ y ∈ keyList b, x < y) :
    entryListL (stealOrMergeR m a b) = entryList a ++ entryList b ∧
      (∀ q ∈ stealOrMergeR m a b, wfB m ((m + 1) / 2) q.2 = true) ∧
      (∀ q ∈ stealOrMergeR m a b, (keyList q.2).head? = some q.1) ∧
      (∀ q ∈ stealOrMergeR m a b, heightB q.2 = heightB b) ∧
      1 ≤ (stealOrMergeR m a b).length ∧ (stealOrMergeR m a b).length ≤ 2 := by
  cases a with
  | leaf ea =>
      cases b with
      | internal cb =>
          rw [height_pos_internal] at hh
          simp only [heightB] at hh
          exfalso
          omega
      | leaf eb =>
          obtain ⟨-, halen, hasort⟩ := wfB_leaf_iff.mp hsa
          obtain ⟨hblb, hblen, hbsort⟩ := wfB_leaf_iff.mp hb
          simp only [nodeSize] at hsize
          by_cases hred : (m + 1) / 2 < eb.length
          · -- redistribute: move the sibling's first entry across
            cases eb with
            | nil => simp at hred
            | cons e eb2 =>
                simp only [List.length_cons] at hred hblb hblen
                have heq : stealOrMergeR m (.leaf ea) (.leaf (e :: eb2)) =
                    [mkTag (.leaf (ea ++ [e])), mkTag (.leaf eb2)] := by
                  simp [stealOrMergeR, hred]
                have hemem : e.1 ∈ keyList (bnode.leaf (e :: eb2)) := by
                  simp [keyList_leaf]
                have hsort1 : ((ea ++ [e]).map Prod.fst).Chain' (· < ·) := by
                  rw [List.map_append, List.chain'_append]
                  refine ⟨hasort, by simp, ?_⟩
                  intro x hx y hy
                  have hy2 : e.1 = y := by simpa using hy
                  subst hy2
                  refine hcross x ?_ e.1 hemem
                  obtain ⟨hne', rfl⟩ := List.mem_getLast?_eq_getLast hx
                  exact List.getLast_mem hne'
                have hsort2 : (eb2.map Prod.fst).Chain' (· < ·) := by
                  rw [List.map_cons] at hbsort
                  exact (List.chain'_cons'.mp hbsort).2
                have hwf1 : wfB m ((m + 1) / 2) (.leaf (ea ++ [e])) = true := by
                  refine wfB_leaf_iff.mpr ⟨?_, ?_, hsort1⟩
                  · simp only [List.length_append, List.length_cons,
                      List.length_nil]
                    omega
                  · simp only [List.length_append, List.length_cons,
                      List.length_nil]
                    omega
                have hwf2 : wfB m ((m + 1) / 2) (.leaf eb2) = true := by
                  refine wfB_leaf_iff.mpr ⟨?_, ?_, hsort2⟩
                  · omega
                  · omega
                rw [heq]
                refine ⟨?_, ?_, ?_, ?_, by simp⟩
                · simp [entryListL, entryList, mkTag]
                · intro q hq
                  rcases List.mem_cons.mp hq with rfl | hq
                  · exact hwf1
                  · obtain rfl : q = mkTag (.leaf eb2) := by simpa using hq
                    exact hwf2
                · intro q hq
                  rcases List.mem_cons.mp hq with rfl | hq
                  · exact tag_correct hwf1 (by simp [entryList, mkTag])
                  · obtain rfl : q = mkTag (.leaf eb2) := by simpa using hq
                    refine tag_correct hwf2 ?_
                    simp only [entryList, mkTag]
                    rw [← List.length_pos_iff_ne_nil]
                    omega
                · intro q hq
                  rcases List.mem_cons.mp hq with rfl | hq
                  · rfl
                  · obtain rfl : q = mkTag (.leaf eb2) := by simpa using hq
                    rfl
          · -- merge the two leaves
            have heq : stealOrMergeR m (.leaf ea) (.leaf eb) =
                [mkTag (.leaf (ea ++ eb))] := by
              simp [stealOrMergeR, hred]
            have hsort1 : ((ea ++ eb).map Prod.fst).Chain' (· < ·) := by
              rw [List.map_append, List.chain'_append]
              refine ⟨hasort, hbsort, ?_⟩
              intro x hx y hy
              refine hcross x ?_ y ?_
              · obtain ⟨hne', rfl⟩ := List.mem_getLast?_eq_getLast hx
                exact List.getLast_mem hne'
              · exact mem_of_head_eq hy
            have hwf1 : wfB m ((m + 1) / 2) (.leaf (ea ++ eb)) = true := by
              refine wfB_leaf_iff.mpr ⟨?_, ?_, hsort1⟩
              · simp only [List.length_append]
                omega
              · simp only [List.length_append]
                omega
            rw [heq]
            refine ⟨by simp [entryListL, entryList, mkTag], ?_, ?_, ?_, by simp⟩
            · intro q hq
              obtain rfl : q = mkTag (.leaf (ea ++ eb)) := by simpa using hq
              exact hwf1
            · intro q hq
              obtain rfl : q = mkTag (.leaf (ea ++ eb)) := by simpa using hq
              refine tag_correct hwf1 ?_
              simp only [entryList, mkTag]
              rw [← List.length_pos_iff_ne_nil]
              simp
              omega
            · intro q hq
              obtain rfl : q = mkTag (.leaf (ea ++ eb)) := by simpa using hq
              rfl
  | internal ca =>
      cases b with
      | leaf eb =>
          rw [height_pos_internal] at hh
          simp only [heightB] at hh
          exfalso
          omega
      | internal cb =>
          obtain ⟨-, halen, haone, hawl, hatags, hasep, hah⟩ :=
            wfB_internal_iff.mp hsa
          obtain ⟨hblb, hblen, hbone, hbwl, hbtags, hbsep, hbh⟩ :=
            wfB_internal_iff.mp hb
          simp only [nodeSize] at hsize
          have hhL : heightBL ca = heightBL cb := by
            rw [height_pos_internal, height_pos_internal] at hh
            omega
          have hasort : ((entryListL ca).map Prod.fst).Chain' (· < ·) :=
            entryListL_sorted (by omega) hawl hatags hasep hah halen haone
          have hbsort : ((entryListL cb).map Prod.fst).Chain' (· < ·) :=
            entryListL_sorted (by omega) hbwl hbtags hbsep hbh hblen hbone
          have hkeyA : ∀ x ∈ (entryListL ca).map Prod.fst,
              x ∈ keyList (bnode.internal ca) := by
            intro x hx
            simpa [keyList, entryList] using hx
          have hkeyB : ∀ y ∈ (entryListL cb).map Prod.fst,
              y ∈ keyList (bnode.internal cb) := by
            intro y hy
            simpa [keyList, entryList] using hy
          by_cases hred : (m + 1) / 2 < cb.length
          · -- redistribute: move the sibling's first child across
            cases cb with
            | nil => exact absurd hred (by simp)
            | cons e cb2 =>
                simp only [List.length_cons] at hred hblb hblen
                have heq : stealOrMergeR m (.internal ca) (.internal (e :: cb2)) =
                    [mkTag (.internal (ca ++ [e])), mkTag (.internal cb2)] := by
                  simp [stealOrMergeR, hred]
                have hewf : wfB m ((m + 1) / 2) e.2 = true := wfL_head hbwl
                have heheight : heightB e.2 = heightBL (e :: cb2) :=
                  heightBL_eq_of_mem hbh (by simp)
                have hene : entryList e.2 ≠ [] :=
                  entryList_ne_nil (b := (m + 1) / 2) (by omega) hewf
                have hsort1 : ((entryListL (ca ++ [e])).map Prod.fst).Chain'
                    (· < ·) := by
                  rw [entryListL_append, List.map_append, List.chain'_append]
                  refine ⟨hasort, by simpa [entryListL] using
                    (keyList_sorted (m := m) (by omega) e.2 _ hewf), ?_⟩
                  intro x hx y hy
                  refine hcross x ?_ y ?_
                  · apply hkeyA
                    obtain ⟨hne', rfl⟩ := List.mem_getLast?_eq_getLast hx
                    exact List.getLast_mem hne'
                  · apply hkeyB
                    apply keyList_mem_of_child (q := e) (by simp)
                    simp only [entryListL, List.append_nil] at hy
                    exact (by simpa [keyList] using mem_of_head_eq hy)
                have hwf1 : wfB m ((m + 1) / 2) (.internal (ca ++ [e])) = true := by
                  refine wfB_internal_build (by omega) ?_ ?_ ?_ ?_ ?_ hsort1 ?_
                  · simp
                    omega
                  · simp
                    omega
                  · simp
                  · intro q hq
                    rcases List.mem_append.mp hq with hq | hq
                    · exact wfL_mem hawl q hq
                    · obtain rfl : q = e := by simpa using hq
                      exact hewf
                  · intro q hq
                    rcases List.mem_append.mp hq with hq | hq
                    · exact tagsB_mem hatags q hq
                    · obtain rfl : q = e := by simpa using hq
                      exact tagsB_mem hbtags _ (by simp)
                  · intro q hq r hr
                    have hall : ∀ w ∈ ca ++ [e], heightB w.2 = heightBL ca := by
                      intro w hw
                      rcases List.mem_append.mp hw with hw1 | hw1
                      · exact heightBL_eq_of_mem hah hw1
                      · have hwe : w = e := by simpa using hw1
                        rw [hwe, heheight, ← hhL]
                    rw [hall q hq, hall r hr]
                have hwf2 : wfB m ((m + 1) / 2) (.internal cb2) = true := by
                  refine wfB_internal_iff.mpr ⟨?_, ?_, ?_, wfL_tail hbwl,
                    tagsB_tail hbtags, sepChainB_tail hbsep, heightsB_tail hbh⟩
                  · omega
                  · omega
                  · omega
                rw [heq]
                refine ⟨?_, ?_, ?_, ?_, by simp⟩
                · simp [entryListL, entryList, mkTag, entryListL_append,
                    List.append_assoc]
                · intro q hq
                  rcases List.mem_cons.mp hq with rfl | hq
                  · exact hwf1
                  · obtain rfl : q = mkTag (.internal cb2) := by simpa using hq
                    exact hwf2
                · intro q hq
                  rcases List.mem_cons.mp hq with rfl | hq
                  · refine tag_correct hwf1 ?_
                    simp only [entryList, mkTag]
                    refine entryListL_ne_nil (m := m) (by omega) (by simp) ?_
                    intro q hq
                    rcases List.mem_append.mp hq with hq | hq
                    · exact wfL_mem hawl q hq
                    · obtain rfl : q = e := by simpa using hq
                      exact hewf
                  · obtain rfl : q = mkTag (.internal cb2) := by simpa using hq
                    refine tag_correct hwf2 ?_
                    simp only [entryList, mkTag]
                    refine entryListL_ne_nil (m := m) (by omega) ?_
                      (fun q hq => wfL_mem (wfL_tail hbwl) q hq)
                    rw [← List.length_pos_iff_ne_nil]
                    omega
                · intro q hq
                  rcases List.mem_cons.mp hq with rfl | hq
                  · refine heightB_internal_eq (by simp) hbh ?_
                    intro s hs
                    rcases List.mem_append.mp hs with hs1 | hs1
                    · refine ⟨e, by simp, ?_⟩
                      rw [heightBL_eq_of_mem hah hs1, hhL, ← heheight]
                    · have hse : s = e := by simpa using hs1
                      exact ⟨e, by simp, by rw [hse]⟩
                  · obtain rfl : q = mkTag (.internal cb2) := by simpa using hq
                    refine heightB_internal_eq ?_ hbh ?_
                    · rw [← List.length_pos_iff_ne_nil]
                      omega
                    · intro s hs
                      exact ⟨s, by simp [hs], rfl⟩
          · -- merge the two internal nodes
            have heq : stealOrMergeR m (.internal ca) (.internal cb) =
                [mkTag (.internal (ca ++ cb))] := by
              simp [stealOrMergeR, hred]
            have hsort1 : ((entryListL (ca ++ cb)).map Prod.fst).Chain'
                (· < ·) := by
              rw [entryListL_append, List.map_append, List.chain'_append]
              refine ⟨hasort, hbsort, ?_⟩
              intro x hx y hy
              refine hcross x ?_ y (hkeyB y (mem_of_head_eq hy))
              apply hkeyA
              obtain ⟨hne', rfl⟩ := List.mem_getLast?_eq_getLast hx
              exact List.getLast_mem hne'
            have hwf1 : wfB m ((m + 1) / 2) (.internal (ca ++ cb)) = true := by
              refine wfB_internal_build (by omega) ?_ ?_ ?_ ?_ ?_ hsort1 ?_
              · simp
                omega
              · simp
                omega
              · simp
                omega
              · intro q hq
                rcases List.mem_append.mp hq with hq | hq
                · exact wfL_mem hawl q hq
                · exact wfL_mem hbwl q hq
              · intro q hq
                rcases List.mem_append.mp hq with hq | hq
                · exact tagsB_mem hatags q hq
                · exact tagsB_mem hbtags q hq
              · intro q hq r hr
                have hgen : ∀ s ∈ ca ++ cb, heightB s.2 = heightBL cb := by
                  intro s hs
                  rcases List.mem_append.mp hs with hs | hs
                  · rw [heightBL_eq_of_mem hah hs, hhL]
                  · exact heightBL_eq_of_mem hbh hs
                rw [hgen q hq, hgen r hr]
            rw [heq]
            refine ⟨?_, ?_, ?_, ?_, by simp⟩
            · simp [entryListL, entryList, mkTag, entryListL_append]
            · intro q hq
              obtain rfl : q = mkTag (.internal (ca ++ cb)) := by simpa using hq
              exact hwf1
            · intro q hq
              obtain rfl : q = mkTag (.internal (ca ++ cb)) := by simpa using hq
              refine tag_correct hwf1 ?_
              simp only [entryList, mkTag]
              refine entryListL_ne_nil (m := m) (by omega) ?_ ?_
              · rw [← List.length_pos_iff_ne_nil]
                simp only [List.length_append]
                omega
              · intro q hq
                rcases List.mem_append.mp hq with hq | hq
                · exact wfL_mem hawl q hq
                · exact wfL_mem hbwl q hq
            · intro q hq
              obtain rfl : q = mkTag (.internal (ca ++ cb)) := by simpa using hq
              refine heightB_internal_eq ?_ hbh ?_
              · rw [← List.length_pos_iff_ne_nil]
                simp only [List.length_append]
                omega
              · intro s hs
                rcases List.mem_append.mp hs with hs | hs
                · obtain ⟨r1, hr1⟩ : ∃ r1, r1 ∈ cb := by
                    cases cb with
                    | nil => simp at hbone
                    | cons x l => exact ⟨x, by simp⟩
                  refine ⟨r1, hr1, ?_⟩
                  rw [heightBL_eq_of_mem hah hs, hhL,
                    heightBL_eq_of_mem hbh hr1]
                · exact ⟨s, hs, rfl⟩

/-- §4.2 underflow repair with the left sibling keeps the combined entries
in order and yields one or two well-formed, correctly tagged nodes of the
sibling's height. -/
theorem stealOrMergeL_spec {V : Type} {m : Nat} (hm : 3 ≤ m) (a b : bnode V)
    (ha : wfB m ((m + 1) / 2) a = true)
    (hsb : wfB m (nodeSize b) b = true)
    (hsize : nodeSize b + 1 = (m + 1) / 2)
    (hh : heightB a = heightB b)
    (hcross : ∀ x ∈ keyList a, ∀ y ∈ keyList b, x < y) :
    entryListL (stealOrMergeL m a b) = entryList a ++ entryList b ∧
      (∀ q ∈ stealOrMergeL m a b, wfB m ((m + 1) / 2) q.2 = true) ∧
      (∀ q ∈ stealOrMergeL m a b, (keyList q.2).head? = some q.1) ∧
      (∀ q ∈ stealOrMergeL m a b, heightB q.2 = heightB a) ∧
      1 ≤ (stealOrMergeL m a b).length ∧ (stealOrMergeL m a b).length ≤ 2 := by
  cases a with
  | leaf ea =>
      cases b with
      | internal cb =>
          rw [height_pos_internal] at hh
          simp only [heightB] at hh
          exfalso
          omega
      | leaf eb =>
          obtain ⟨halb, halen, hasort⟩ := wfB_leaf_iff.mp ha
          obtain ⟨-, hblen, hbsort⟩ := wfB_leaf_iff.mp hsb
          simp only [nodeSize] at hsize
          by_cases hred : (m + 1) / 2 < ea.length
          · -- redistribute: move this node's last entry across
            obtain ⟨ea2, e, rfl⟩ : ∃ l q, ea = l ++ [q] := by
              have hane : ea ≠ [] := by
                rw [← List.length_pos_iff_ne_nil]
                omega
              exact ⟨ea.dropLast, ea.getLast hane,
                (List.dropLast_append_getLast hane).symm⟩
            obtain ⟨ke, ve⟩ := e
            simp only [List.length_append, List.length_cons, List.length_nil]
              at hred halb halen
            have heq : stealOrMergeL m (.leaf (ea2 ++ [(ke, ve)])) (.leaf eb) =
                [mkTag (.leaf ea2), mkTag (.leaf ((ke, ve) :: eb))] := by
              simp [stealOrMergeL, hred, List.getLast?_concat,
                List.dropLast_concat]
            rw [List.map_append, List.chain'_append] at hasort
            obtain ⟨hsA, -, -⟩ := hasort
            have hsort2 : (((ke, ve) :: eb).map Prod.fst).Chain' (· < ·) := by
              rw [List.map_cons, List.chain'_cons']
              refine ⟨?_, hbsort⟩
              intro y hy
              refine hcross ke ?_ y ?_
              · simp [keyList_leaf]
              · rw [keyList_leaf]
                exact mem_of_head_eq hy
            have hwf1 : wfB m ((m + 1) / 2) (.leaf ea2) = true := by
              refine wfB_leaf_iff.mpr ⟨?_, ?_, hsA⟩
              · omega
              · omega
            have hwf2 : wfB m ((m + 1) / 2) (.leaf ((ke, ve) :: eb)) = true := by
              refine wfB_leaf_iff.mpr ⟨?_, ?_, hsort2⟩
              · simp only [List.length_cons]
                omega
              · simp only [List.length_cons]
                omega
            rw [heq]
            refine ⟨?_, ?_, ?_, ?_, by simp⟩
            · simp [entryListL, entryList, mkTag, List.append_assoc]
            · intro q hq
              rcases List.mem_cons.mp hq with rfl | hq
              · exact hwf1
              · obtain rfl : q = mkTag (.leaf ((ke, ve) :: eb)) := by
                  simpa using hq
                exact hwf2
            · intro q hq
              rcases List.mem_cons.mp hq with rfl | hq
              · refine tag_correct hwf1 ?_
                simp only [entryList, mkTag]
                rw [← List.length_pos_iff_ne_nil]
                omega
              · obtain rfl : q = mkTag (.leaf ((ke, ve) :: eb)) := by
                  simpa using hq
                exact tag_correct hwf2 (by simp [entryList, mkTag])
            · intro q hq
              rcases List.mem_cons.mp hq with rfl | hq
              · rfl
              · obtain rfl : q = mkTag (.leaf ((ke, ve) :: eb)) := by
                  simpa using hq
                rfl
          · -- merge the two leaves
            have heq : stealOrMergeL m (.leaf ea) (.leaf eb) =
                [mkTag (.leaf (ea ++ eb))] := by
              simp [stealOrMergeL, hred]
            have hsort1 : ((ea ++ eb).map Prod.fst).Chain' (· < ·) := by
              rw [List.map_append, List.chain'_append]
              refine ⟨hasort, hbsort, ?_⟩
              intro x hx y hy
              refine hcross x ?_ y ?_
              · obtain ⟨hne', rfl⟩ := List.mem_getLast?_eq_getLast hx
                exact List.getLast_mem hne'
              · exact mem_of_head_eq hy
            have hwf1 : wfB m ((m + 1) / 2) (.leaf (ea ++ eb)) = true := by
              refine wfB_leaf_iff.mpr ⟨?_, ?_, hsort1⟩
              · simp only [List.length_append]
                omega
              · simp only [List.length_append]
                omega
            rw [heq]
            refine ⟨by simp [entryListL, entryList, mkTag], ?_, ?_, ?_, by simp⟩
            · intro q hq
              obtain rfl : q = mkTag (.leaf (ea ++ eb)) := by simpa using hq
              exact hwf1
            · intro q hq
              obtain rfl : q = mkTag (.leaf (ea ++ eb)) := by simpa using hq
              refine tag_correct hwf1 ?_
              simp only [entryList, mkTag]
              rw [← List.length_pos_iff_ne_nil]
              simp
              omega
            · intro q hq
              obtain rfl : q = mkTag (.leaf (ea ++ eb)) := by simpa using hq
              rfl
  | internal ca =>
      cases b with
      | leaf eb =>
          rw [height_pos_internal] at hh
          simp only [heightB] at hh
          exfalso
          omega
      | internal cb =>
          obtain ⟨halb, halen, haone, hawl, hatags, hasep, hah⟩ :=
            wfB_internal_iff.mp ha
          obtain ⟨-, hblen, hbone, hbwl, hbtags, hbsep, hbh⟩ :=
            wfB_internal_iff.mp hsb
          simp only [nodeSize] at hsize
          have hhL : heightBL ca = heightBL cb := by
            rw [height_pos_internal, height_pos_internal] at hh
            omega
          have hasort : ((entryListL ca).map Prod.fst).Chain' (· < ·) :=
            entryListL_sorted (by omega) hawl hatags hasep hah halen haone
          have hbsort : ((entryListL cb).map Prod.fst).Chain' (· < ·) :=
            entryListL_sorted (by omega) hbwl hbtags hbsep hbh hblen hbone
          have hkeyA : ∀ x ∈ (entryListL ca).map Prod.fst,
              x ∈ keyList (bnode.internal ca) := by
            intro x hx
            simpa [keyList, entryList] using hx
          have hkeyB : ∀ y ∈ (entryListL cb).map Prod.fst,
              y ∈ keyList (bnode.internal cb) := by
            intro y hy
            simpa [keyList, entryList] using hy
          by_cases hred : (m + 1) / 2 < ca.length
          · -- redistribute: move this node's last child across
            obtain ⟨ca2, e, rfl⟩ : ∃ l q, ca = l ++ [q] := by
              have hane : ca ≠ [] := by
                rw [← List.length_pos_iff_ne_nil]
                omega
              exact ⟨ca.dropLast, ca.getLast hane,
                (List.dropLast_append_getLast hane).symm⟩
            obtain ⟨ke, ce⟩ := e
            simp only [List.length_append, List.length_cons, List.length_nil]
              at hred halb halen
            have heq : stealOrMergeL m (.internal (ca2 ++ [(ke, ce)]))
                (.internal cb) =
                [mkTag (.internal ca2), mkTag (.internal ((ke, ce) :: cb))] := by
              simp [stealOrMergeL, hred, List.getLast?_concat,
                List.dropLast_concat]
            have hewf : wfB m ((m + 1) / 2) ce = true := by
              have := wfL_mem hawl (ke, ce) (by simp)
              simpa using this
            have hemem : ((ke, ce) : Nat × bnode V) ∈ ca2 ++ [(ke, ce)] := by
              simp
            have heheight : heightB ce = heightBL (ca2 ++ [(ke, ce)]) := by
              have := heightBL_eq_of_mem hah hemem
              simpa using this
            simp only [entryListL_append, entryListL, List.append_nil,
              List.map_append, List.chain'_append] at hasort
            obtain ⟨hsA, hsE, -⟩ := hasort
            have hsort2 : ((entryListL ((ke, ce) :: cb)).map Prod.fst).Chain'
                (· < ·) := by
              simp only [entryListL, List.map_append, List.chain'_append]
              refine ⟨hsE, hbsort, ?_⟩
              intro x hx y hy
              refine hcross x ?_ y (hkeyB y (mem_of_head_eq hy))
              apply hkeyA
              rw [entryListL_append]
              simp only [List.map_append, List.mem_append]
              right
              have hx2 : x ∈ (entryList ce).map Prod.fst := by
                obtain ⟨hne', rfl⟩ := List.mem_getLast?_eq_getLast hx
                exact List.getLast_mem hne'
              simpa [entryListL] using hx2
            have hwf1 : wfB m ((m + 1) / 2) (.internal ca2) = true := by
              refine wfB_internal_build (by omega) ?_ ?_ ?_ ?_ ?_ hsA ?_
              · omega
              · omega
              · omega
              · intro q hq
                exact wfL_mem hawl q (List.mem_append_left _ hq)
              · intro q hq
                exact tagsB_mem hatags q (List.mem_append_left _ hq)
              · intro q hq r hr
                exact heights_mem hah (List.mem_append_left _ hq)
                  (List.mem_append_left _ hr)
            have hall : ∀ w ∈ ((ke, ce) :: cb), heightB w.2 = heightBL cb := by
              intro w hw
              rcases List.mem_cons.mp hw with rfl | hw1
              · rw [show ((ke, ce) : Nat × bnode V).2 = ce from rfl,
                  heheight, hhL]
              · exact heightBL_eq_of_mem hbh hw1
            have hwf2 : wfB m ((m + 1) / 2) (.internal ((ke, ce) :: cb))
                = true := by
              refine wfB_internal_build (by omega) ?_ ?_ ?_ ?_ ?_ hsort2 ?_
              · simp only [List.length_cons]
                omega
              · simp only [List.length_cons]
                omega
              · simp only [List.length_cons]
                omega
              · intro q hq
                rcases List.mem_cons.mp hq with rfl | hq
                · simpa using hewf
                · exact wfL_mem hbwl q hq
              · intro q hq
                rcases List.mem_cons.mp hq with rfl | hq
                · exact tagsB_mem hatags _ hemem
                · exact tagsB_mem hbtags q hq
              · intro q hq r hr
                rw [hall q hq, hall r hr]
            rw [heq]
            refine ⟨?_, ?_, ?_, ?_, by simp⟩
            · simp [entryListL, entryList, mkTag, entryListL_append,
                List.append_assoc]
            · intro q hq
              rcases List.mem_cons.mp hq with rfl | hq
              · exact hwf1
              · obtain rfl : q = mkTag (.internal ((ke, ce) :: cb)) := by
                  simpa using hq
                exact hwf2
            · intro q hq
              rcases List.mem_cons.mp hq with rfl | hq
              · refine tag_correct hwf1 ?_
                simp only [entryList, mkTag]
                refine entryListL_ne_nil (m := m) (by omega) ?_
                  (fun q hq => wfL_mem hawl q (List.mem_append_left _ hq))
                rw [← List.length_pos_iff_ne_nil]
                omega
              · obtain rfl : q = mkTag (.internal ((ke, ce) :: cb)) := by
                  simpa using hq
                refine tag_correct hwf2 ?_
                simp only [entryList, mkTag]
                refine entryListL_ne_nil (m := m) (by omega) (by simp) ?_
                intro q hq
                rcases List.mem_cons.mp hq with rfl | hq
                · simpa using hewf
                · exact wfL_mem hbwl q hq
            · intro q hq
              rcases List.mem_cons.mp hq with rfl | hq
              · refine heightB_internal_eq ?_ hah ?_
                · rw [← List.length_pos_iff_ne_nil]
                  omega
                · intro s hs
                  exact ⟨s, List.mem_append_left _ hs, rfl⟩
              · obtain rfl : q = mkTag (.internal ((ke, ce) :: cb)) := by
                  simpa using hq
                refine heightB_internal_eq (by simp) hah ?_
                intro s hs
                rcases List.mem_cons.mp hs with rfl | hs1
                · exact ⟨(ke, ce), hemem, rfl⟩
                · refine ⟨(ke, ce), hemem, ?_⟩
                  rw [heightBL_eq_of_mem hbh hs1, ← hhL]
                  exact heheight.symm
          · -- merge the two internal nodes
            have heq : stealOrMergeL m (.internal ca) (.internal cb) =
                [mkTag (.internal (ca ++ cb))] := by
              simp [stealOrMergeL, hred]
            have hsort1 : ((entryListL (ca ++ cb)).map Prod.fst).Chain'
                (· < ·) := by
              rw [entryListL_append, List.map_append, List.chain'_append]
              refine ⟨hasort, hbsort, ?_⟩
              intro x hx y hy
              refine hcross x ?_ y (hkeyB y (mem_of_head_eq hy))
              apply hkeyA
              obtain ⟨hne', rfl⟩ := List.mem_getLast?_eq_getLast hx
              exact List.getLast_mem hne'
            have hwf1 : wfB m ((m + 1) / 2) (.internal (ca ++ cb)) = true := by
              refine wfB_internal_build (by omega) ?_ ?_ ?_ ?_ ?_ hsort1 ?_
              · simp only [List.length_append]
                omega
              · simp only [List.length_append]
                omega
              · simp only [List.length_append]
                omega
              · intro q hq
                rcases List.mem_append.mp hq with hq | hq
                · exact wfL_mem hawl q hq
                · exact wfL_mem hbwl q hq
              · intro q hq
                rcases List.mem_append.mp hq with hq | hq
                · exact tagsB_mem hatags q hq
                · exact tagsB_mem hbtags q hq
              · intro q hq r hr
                have hgen : ∀ s ∈ ca ++ cb, heightB s.2 = heightBL ca := by
                  intro s hs
                  rcases List.mem_append.mp hs with hs | hs
                  · exact heightBL_eq_of_mem hah hs
                  · rw [heightBL_eq_of_mem hbh hs, ← hhL]
                rw [hgen q hq, hgen r hr]
            rw [heq]
            refine ⟨?_, ?_, ?_, ?_, by simp⟩
            · simp [entryListL, entryList, mkTag, entryListL_append]
            · intro q hq
              obtain rfl : q = mkTag (.internal (ca ++ cb)) := by simpa using hq
              exact hwf1
            · intro q hq
              obtain rfl : q = mkTag (.internal (ca ++ cb)) := by simpa using hq
              refine tag_correct hwf1 ?_
              simp only [entryList, mkTag]
              refine entryListL_ne_nil (m := m) (by omega) ?_ ?_
              · rw [← List.length_pos_iff_ne_nil]
                simp only [List.length_append]
                omega
              · intro q hq
                rcases List.mem_append.mp hq with hq | hq
                · exact wfL_mem hawl q hq
                · exact wfL_mem hbwl q hq
            · intro q hq
              obtain rfl : q = mkTag (.internal (ca ++ cb)) := by simpa using hq
              refine heightB_internal_eq ?_ hah ?_
              · rw [← List.length_pos_iff_ne_nil]
                simp only [List.length_append]
                omega
              · intro s hs
                rcases List.mem_append.mp hs with hs | hs
                · exact ⟨s, hs, rfl⟩
                · obtain ⟨r1, hr1⟩ : ∃ r1, r1 ∈ ca := by
                    cases ca with
                    | nil => simp at haone
                    | cons x l => exact ⟨x, by simp⟩
                  refine ⟨r1, hr1, ?_⟩
                  rw [heightBL_eq_of_mem hbh hs, ← hhL,
                    heightBL_eq_of_mem hah hr1]

theorem wfB_size {V : Type} {m lb : Nat} {t : bnode V} (h : wfB m lb t = true) :
    lb ≤ nodeSize t := by
  cases t with
  | leaf es => exact (wfB_leaf_iff.mp h).1
  | internal cs => exact (wfB_internal_iff.mp h).1

theorem wfB_self {V : Type} {m lb : Nat} {t : bnode V} (h : wfB m lb t = true) :
    wfB m (nodeSize t) t = true := by
  cases t with
  | leaf es =>
      obtain ⟨-, h2, h3⟩ := wfB_leaf_iff.mp h
      exact wfB_leaf_iff.mpr ⟨Nat.le_refl _, h2, h3⟩
  | internal cs =>
      obtain ⟨-, h2⟩ := wfB_internal_iff.mp h
      exact wfB_internal_iff.mpr ⟨Nat.le_refl _, h2⟩

/-- §4.2 erase from one node: from a well-formed node it returns `none`
exactly when the key is absent; otherwise the surviving node holds exactly
the old entries minus the erased one, is structurally well-formed at its own
(possibly one smaller) size, and keeps its height.  Below a node list the
repair step keeps every non-head replacement node at the occupancy minimum;
the head may be one entry short only when the list was a lone last child
(whose parent, or `erase` at the root, accounts for it). -/
theorem er_spec {V : Type} {m : Nat} (hm : 3 ≤ m) (k : Nat) (t : bnode V) :
    ∀ lb, wfB m lb t = true →
      (∀ cs0, t = bnode.internal cs0 → 2 ≤ cs0.length) →
      (er m k t = none ↔ findEntry k (entryList t) = none) ∧
      (∀ t', er m k t = some t' →
        entryList t' = rmEntry k (entryList t) ∧
        wfB m (nodeSize t') t' = true ∧
        nodeSize t ≤ nodeSize t' + 1 ∧ nodeSize t' ≤ nodeSize t ∧
        heightB t' = heightB t) := by
  refine @er.induct V m k
    (fun t => ∀ lb, wfB m lb t = true →
      (∀ cs0, t = bnode.internal cs0 → 2 ≤ cs0.length) →
      (er m k t = none ↔ findEntry k (entryList t) = none) ∧
      (∀ t', er m k t = some t' →
        entryList t' = rmEntry k (entryList t) ∧
        wfB m (nodeSize t') t' = true ∧
        nodeSize t ≤ nodeSize t' + 1 ∧ nodeSize t' ≤ nodeSize t ∧
        heightB t' = heightB t))
    (fun cs => cs.length ≤ m → wfL m cs = true → tagsB cs = true →
      sepChainB cs = true → heightsB cs = true →
      (erL m k cs = none ↔ findEntry k (entryListL cs) = none) ∧
      (∀ cs', erL m k cs = some cs' →
        entryListL cs' = rmEntry k (entryListL cs) ∧
        (∀ q ∈ cs', (keyList q.2).head? = some q.1) ∧
        (∀ q ∈ cs', heightB q.2 = heightBL cs) ∧
        cs.length ≤ cs'.length + 1 ∧ cs'.length ≤ cs.length ∧
        1 ≤ cs'.length ∧
        (∀ q ∈ cs'.tail, wfB m ((m + 1) / 2) q.2 = true) ∧
        (∃ q0 tl0, cs' = q0 :: tl0 ∧ wfB m (nodeSize q0.2) q0.2 = true ∧
          ((m + 1) / 2 ≤ nodeSize q0.2 ∨
            (nodeSize q0.2 + 1 = (m + 1) / 2 ∧ cs'.length = cs.length))) ∧
        (2 ≤ cs.length → ∀ q ∈ cs', wfB m ((m + 1) / 2) q.2 = true)))
    ?_ ?_ ?_ ?_ ?_ ?_ ?_ ?_ ?_ t
  · -- leaf, key present
    intro es hcon lb hw _
    obtain ⟨-, hlm, hsort⟩ := wfB_leaf_iff.mp hw
    have kmem : k ∈ es.map Prod.fst := by
      simp at hcon
      simp [List.mem_map]
      exact hcon
    have heq : er m k (.leaf es) = some (.leaf (rmEntry k es)) := by
      simp only [er]
      rw [if_pos hcon]
    rw [heq]
    constructor
    · refine iff_of_false (by simp) ?_
      simp only [entryList]
      rw [findEntry_eq_none]
      intro hno
      exact hno kmem
    · intro t' ht'
      have ht2 : bnode.leaf (rmEntry k es) = t' := by simpa using ht'
      subst ht2
      refine ⟨rfl, ?_, ?_, ?_, rfl⟩
      · refine wfB_leaf_iff.mpr ⟨Nat.le_refl _, ?_, ?_⟩
        · exact le_trans (rmEntry_sublist k es).length_le hlm
        · exact hsort.sublist ((rmEntry_sublist k es).map Prod.fst)
      · simp only [nodeSize]
        have := rmEntry_length_of_mem k es kmem
        omega
      · simp only [nodeSize]
        exact (rmEntry_sublist k es).length_le
  · -- leaf, key absent
    intro es hcon lb _ _
    have heq : er m k (.leaf es) = none := by
      simp only [er]
      rw [if_neg hcon]
    rw [heq]
    constructor
    · refine iff_of_true rfl ?_
      simp only [entryList]
      rw [findEntry_eq_none]
      simp at hcon
      simp [List.mem_map]
      exact hcon
    · intro t' ht'
      exact Option.noConfusion ht'
  · -- internal node: delegate to the child list
    intro cs ih lb hw h2
    obtain ⟨-, hlenm, hone, hwl, htags, hsep, hkind⟩ := wfB_internal_iff.mp hw
    have h2cs : 2 ≤ cs.length := h2 cs rfl
    obtain ⟨hiffL, hsomeL⟩ := ih hlenm hwl htags hsep hkind
    have heq : er m k (.internal cs) = (erL m k cs).map bnode.internal := by
      simp [er]
    rw [heq]
    have hflat : entryList (bnode.internal cs) = entryListL cs := rfl
    cases hcl : erL m k cs with
    | none =>
        constructor
        · rw [hflat]
          exact iff_of_true (by simp) (hiffL.mp hcl)
        · intro t' ht'
          simp at ht'
    | some cs' =>
        obtain ⟨hent, htg, hhg, hlo, hhi, hone', -,
          ⟨q0, tl0, hshape, -, -⟩, hall2⟩ := hsomeL cs' hcl
        have hsflat : ((entryListL cs).map Prod.fst).Chain' (· < ·) :=
          entryListL_sorted (by omega) hwl htags hsep hkind hlenm hone
        constructor
        · rw [hflat]
          refine iff_of_false (by simp) ?_
          intro hno
          have h5 := hiffL.mpr hno
          rw [hcl] at h5
          exact Option.noConfusion h5
        · intro t' ht'
          have ht2 : bnode.internal cs' = t' := by simpa using ht'
          subst ht2
          refine ⟨by simpa [entryList] using hent, ?_, ?_, ?_, ?_⟩
          · refine wfB_internal_build (by omega) (Nat.le_refl _)
              (le_trans hhi hlenm) hone' (hall2 h2cs) htg ?_ ?_
            · rw [hent]
              exact hsflat.sublist ((rmEntry_sublist k _).map Prod.fst)
            · intro q hq r hr
              rw [hhg q hq, hhg r hr]
          · simp only [nodeSize]
            omega
          · simp only [nodeSize]
            omega
          · rw [height_pos_internal, height_pos_internal]
            have hgl : heightBL cs' = heightBL cs := by
              rw [hshape]
              have h6 := hhg q0 (by rw [hshape]; exact List.mem_cons_self _ _)
              simpa [heightBL] using h6
            rw [hgl]
  · -- empty child list
    intro _ _ _ _ _
    have heq : erL m k ([] : List (Nat × bnode V)) = none := by simp [erL]
    rw [heq]
    constructor
    · exact iff_of_true rfl (by simp [entryListL, findEntry])
    · intro cs' h
      exact Option.noConfusion h
  · -- lone child, key below its separator: NotFound
    intro k1 c hklt hlenm hwl htags hsep hkind
    have hwc : wfB m ((m + 1) / 2) c = true := wfL_head hwl
    have hsc : (keyList c).Chain' (· < ·) :=
      keyList_sorted (by omega) c ((m + 1) / 2) hwc
    have htag := tagsB_mem htags (k1, c) (by simp)
    have hnone : findEntry k (entryList c) = none := by
      rw [findEntry_eq_none]
      intro hmem
      have h5 := head_le_of_sorted hsc htag k (by simpa [keyList] using hmem)
      omega
    have heq : erL m k [(k1, c)] = none := by simp [erL, hklt]
    rw [heq]
    constructor
    · refine iff_of_true rfl ?_
      simp only [entryListL]
      rw [findEntry_append_of_none k _ hnone]
      rfl
    · intro cs' h
      exact Option.noConfusion h
  · -- lone child, descend (the parent repairs any underflow)
    intro k1 c hnlt ih hlenm hwl htags hsep hkind
    have hwc : wfB m ((m + 1) / 2) c = true := wfL_head hwl
    have h2c : ∀ cs0, c = bnode.internal cs0 → 2 ≤ cs0.length := by
      intro cs0 hc
      rw [hc] at hwc
      have h5 := (wfB_internal_iff.mp hwc).1
      omega
    obtain ⟨hiffC, hsomeC⟩ := ih ((m + 1) / 2) hwc h2c
    have heq : erL m k [(k1, c)] = (er m k c).map (fun c2 => [mkTag c2]) := by
      simp [erL, hnlt]
    rw [heq]
    have hflat : entryListL [(k1, c)] = entryList c ++ [] := rfl
    cases hc2 : er m k c with
    | none =>
        constructor
        · refine iff_of_true (by simp) ?_
          rw [hflat, List.append_nil]
          exact hiffC.mp hc2
        · intro cs' h
          simp at h
    | some c2 =>
        obtain ⟨hentC, hwfC, hloC, hhiC, hhC⟩ := hsomeC c2 hc2
        have hszc : (m + 1) / 2 ≤ nodeSize c := wfB_size hwc
        have hne2 : entryList c2 ≠ [] := by
          refine entryList_ne_nil (b := nodeSize c2) ?_ hwfC
          omega
        constructor
        · rw [hflat, List.append_nil]
          refine iff_of_false (by simp) ?_
          intro hno
          have h5 := hiffC.mpr hno
          rw [hc2] at h5
          exact Option.noConfusion h5
        · intro cs' h
          have h4 : [mkTag c2] = cs' := by simpa using h
          subst h4
          refine ⟨?_, ?_, ?_, by simp, by simp, by simp, ?_, ?_, ?_⟩
          · simp only [entryListL, mkTag, List.append_nil]
            exact hentC
          · intro q hq
            have hq2 : q = mkTag c2 := by simpa using hq
            subst hq2
            exact tag_correct hwfC hne2
          · intro q hq
            have hq2 : q = mkTag c2 := by simpa using hq
            subst hq2
            exact hhC
          · intro q hq
            simp at hq
          · refine ⟨mkTag c2, [], rfl, hwfC, ?_⟩
            by_cases hb : (m + 1) / 2 ≤ nodeSize c2
            · exact Or.inl hb
            · refine Or.inr ⟨?_, by simp⟩
              show nodeSize c2 + 1 = (m + 1) / 2
              omega
          · intro hlen2
            exfalso
            simp at hlen2
  · -- two or more children, key below the first separator: NotFound
    intro k1 c1 k2 c2 rest hklt hlenm hwl htags hsep hkind
    have hsflat : ((entryListL ((k1, c1) :: (k2, c2) :: rest)).map
        Prod.fst).Chain' (· < ·) :=
      entryListL_sorted (by omega) hwl htags hsep hkind hlenm (by simp)
    have hge := flat_keys_ge (m := m) (by omega) k1 c1 ((k2, c2) :: rest)
      hwl htags hsflat
    have heq : erL m k ((k1, c1) :: (k2, c2) :: rest) = none := by
      simp [erL, hklt]
    rw [heq]
    constructor
    · refine iff_of_true rfl ?_
      rw [findEntry_eq_none]
      intro hmem
      have h5 := hge k hmem
      omega
    · intro cs' h
      exact Option.noConfusion h
  · -- erase below the first child, repairing with the right sibling
    intro k1 c1 k2 c2 rest hnlt hklt2 ih hlenm hwl htags hsep hkind
    have hwc1 : wfB m ((m + 1) / 2) c1 = true := wfL_head hwl
    have hwc2 : wfB m ((m + 1) / 2) c2 = true := wfL_head (wfL_tail hwl)
    have h2c1 : ∀ cs0, c1 = bnode.internal cs0 → 2 ≤ cs0.length := by
      intro cs0 hc
      rw [hc] at hwc1
      have h5 := (wfB_internal_iff.mp hwc1).1
      omega
    obtain ⟨hiff1, hsome1⟩ := ih ((m + 1) / 2) hwc1 h2c1
    have hsrest : ((entryListL ((k2, c2) :: rest)).map Prod.fst).Chain'
        (· < ·) :=
      entryListL_sorted (m := m) (by omega) (wfL_tail hwl)
        (tagsB_tail htags) (sepChainB_tail hsep) (heightsB_tail hkind)
        (by simp only [List.length_cons] at hlenm ⊢; omega) (by simp)
    have hgeT := flat_keys_ge (m := m) (by omega) k2 c2 rest (wfL_tail hwl)
      (tagsB_tail htags) hsrest
    have hnoneT : findEntry k (entryListL ((k2, c2) :: rest)) = none := by
      rw [findEntry_eq_none]
      intro hmem
      have h5 := hgeT k hmem
      omega
    have hcsflat : entryListL ((k1, c1) :: (k2, c2) :: rest) =
        entryList c1 ++ entryListL ((k2, c2) :: rest) := rfl
    have hTflat : entryListL ((k2, c2) :: rest) =
        entryList c2 ++ entryListL rest := rfl
    have heq : erL m k ((k1, c1) :: (k2, c2) :: rest) =
        (er m k c1).map (fun c3 =>
          if (m + 1) / 2 ≤ nodeSize c3 then mkTag c3 :: (k2, c2) :: rest
          else stealOrMergeR m c3 c2 ++ rest) := by
      simp [erL, hnlt, hklt2]
    rw [heq]
    cases hc3 : er m k c1 with
    | none =>
        constructor
        · refine iff_of_true (by simp) ?_
          rw [hcsflat, findEntry_append_of_none k _ (hiff1.mp hc3), hnoneT]
        · intro cs' h
          simp at h
    | some c3 =>
        obtain ⟨hent3, hwf3, hlo3, hhi3, hh3⟩ := hsome1 c3 hc3
        have kmem : k ∈ (entryList c1).map Prod.fst := by
          by_contra hmem
          have h5 := hiff1.mpr ((findEntry_eq_none k _).mpr hmem)
          rw [hc3] at h5
          exact Option.noConfusion h5
        have hszc1 : (m + 1) / 2 ≤ nodeSize c1 := wfB_size hwc1
        constructor
        · rw [hcsflat]
          refine iff_of_false (by simp) ?_
          rw [findEntry_eq_none]
          intro hno
          refine hno ?_
          rw [List.map_append]
          exact List.mem_append_left _ kmem
        · intro cs' h
          have h4 : (if (m + 1) / 2 ≤ nodeSize c3 then
                mkTag c3 :: (k2, c2) :: rest
              else stealOrMergeR m c3 c2 ++ rest) = cs' := by simpa using h
          by_cases hk3 : (m + 1) / 2 ≤ nodeSize c3
          · rw [if_pos hk3] at h4
            subst h4
            have hwf3min : wfB m ((m + 1) / 2) c3 = true := wfB_mono hk3 hwf3
            have hne3 : entryList c3 ≠ [] :=
              entryList_ne_nil (b := (m + 1) / 2) (by omega) hwf3min
            refine ⟨?_, ?_, ?_, ?_, ?_, ?_, ?_, ?_, ?_⟩
            · have hL : entryListL (mkTag c3 :: (k2, c2) :: rest) =
                  entryList c3 ++ entryListL ((k2, c2) :: rest) := rfl
              rw [hL, hcsflat, rmEntry_append_left k _ _ kmem, hent3]
            · intro q hq
              rcases List.mem_cons.mp hq with rfl | hq
              · exact tag_correct hwf3min hne3
              · exact tagsB_mem (tagsB_tail htags) q hq
            · intro q hq
              rcases List.mem_cons.mp hq with rfl | hq
              · exact hh3
              · exact heightBL_eq_of_mem hkind (List.mem_cons_of_mem _ hq)
            · simp only [List.length_cons]
              omega
            · simp only [List.length_cons]
              omega
            · simp only [List.length_cons]
              omega
            · intro q hq
              simp only [List.tail_cons] at hq
              exact wfL_mem (wfL_tail hwl) q hq
            · exact ⟨mkTag c3, (k2, c2) :: rest, rfl, hwf3, Or.inl hk3⟩
            · intro h2len q hq
              rcases List.mem_cons.mp hq with rfl | hq
              · exact hwf3min
              · exact wfL_mem (wfL_tail hwl) q hq
          · rw [if_neg hk3] at h4
            subst h4
            have hsz3 : nodeSize c3 + 1 = (m + 1) / 2 := by omega
            have hh32 : heightB c3 = heightB c2 := by
              rw [hh3]
              exact heights_mem (q := (k1, c1)) (r := (k2, c2)) hkind
                (by simp) (by simp)
            have hcross3 : ∀ x ∈ keyList c3, ∀ y ∈ keyList c2, x < y := by
              intro x hx y hy
              have hx1 : x ∈ keyList c1 := by
                have h6 : keyList c3 = (rmEntry k (entryList c1)).map
                    Prod.fst := by
                  rw [keyList, hent3]
                rw [h6] at hx
                exact ((rmEntry_sublist k (entryList c1)).map Prod.fst).subset
                  hx
              have hxk2 : x < k2 := by
                have hall : allLtB (keyList c1) k2 = true := by
                  simp only [sepChainB, Bool.and_eq_true] at hsep
                  exact hsep.1
                exact (allLtB_iff _ _).mp hall x hx1
              have hk2y : k2 ≤ y := by
                have htag2 := tagsB_mem htags (k2, c2) (by simp)
                have hsc2 : (keyList c2).Chain' (· < ·) :=
                  keyList_sorted (by omega) c2 ((m + 1) / 2) hwc2
                exact head_le_of_sorted hsc2 htag2 y hy
              omega
            obtain ⟨hRent, hRwf, hRtags, hRheights, hRone, hRtwo⟩ :=
              stealOrMergeR_spec hm c3 c2 hwf3 hsz3 hwc2 hh32 hcross3
            cases hR : stealOrMergeR m c3 c2 with
            | nil =>
                rw [hR] at hRone
                simp at hRone
            | cons r0 R2 =>
                rw [hR] at hRent hRwf hRtags hRheights hRone hRtwo
                refine ⟨?_, ?_, ?_, ?_, ?_, ?_, ?_, ?_, ?_⟩
                · rw [entryListL_append, hRent, hcsflat, hTflat,
                    rmEntry_append_left k _ _ kmem, hent3, List.append_assoc]
                · intro q hq
                  rcases List.mem_append.mp hq with hq | hq
                  · exact hRtags q hq
                  · exact tagsB_mem htags q
                      (List.mem_cons_of_mem _ (List.mem_cons_of_mem _ hq))
                · intro q hq
                  rcases List.mem_append.mp hq with hq | hq
                  · rw [hRheights q hq]
                    exact heightBL_eq_of_mem (r := (k2, c2)) hkind (by simp)
                  · exact heightBL_eq_of_mem hkind
                      (List.mem_cons_of_mem _ (List.mem_cons_of_mem _ hq))
                · simp only [List.length_append, List.length_cons]
                    at hRone hRtwo ⊢
                  omega
                · simp only [List.length_append, List.length_cons]
                    at hRone hRtwo ⊢
                  omega
                · simp only [List.length_append, List.length_cons]
                  omega
                · intro q hq
                  simp only [List.cons_append, List.tail_cons] at hq
                  rcases List.mem_append.mp hq with hq | hq
                  · exact hRwf q (List.mem_cons_of_mem _ hq)
                  · exact wfL_mem (wfL_tail (wfL_tail hwl)) q hq
                · refine ⟨r0, R2 ++ rest, by simp, ?_, Or.inl ?_⟩
                  · exact wfB_self (hRwf r0 (by simp))
                  · exact wfB_size (hRwf r0 (by simp))
                · intro h2len q hq
                  rcases List.mem_append.mp hq with hq | hq
                  · exact hRwf q hq
                  · exact wfL_mem (wfL_tail (wfL_tail hwl)) q hq
  · -- erase below a later child, repairing with the left sibling
    intro k1 c1 k2 c2 rest hnlt hnlt2 ih hlenm hwl htags hsep hkind
    have hwc1 : wfB m ((m + 1) / 2) c1 = true := wfL_head hwl
    have hnone1 : findEntry k (entryList c1) = none := by
      rw [findEntry_eq_none]
      intro hmem
      have hall : allLtB (keyList c1) k2 = true := by
        simp only [sepChainB, Bool.and_eq_true] at hsep
        exact hsep.1
      have h5 := (allLtB_iff _ _).mp hall k (by simpa [keyList] using hmem)
      omega
    have hk1mem : k ∉ (entryList c1).map Prod.fst :=
      (findEntry_eq_none k _).mp hnone1
    obtain ⟨hiffT, hsomeT⟩ := ih
      (by simp only [List.length_cons] at hlenm ⊢; omega)
      (wfL_tail hwl) (tagsB_tail htags) (sepChainB_tail hsep)
      (heightsB_tail hkind)
    have hcsflat : entryListL ((k1, c1) :: (k2, c2) :: rest) =
        entryList c1 ++ entryListL ((k2, c2) :: rest) := rfl
    have heq : erL m k ((k1, c1) :: (k2, c2) :: rest) =
        (erL m k ((k2, c2) :: rest)).map (fun cs2 =>
          match cs2 with
          | (k3, c3) :: rest2 =>
              if (m + 1) / 2 ≤ nodeSize c3 then (k1, c1) :: (k3, c3) :: rest2
              else stealOrMergeL m c1 c3 ++ rest2
          | [] => [(k1, c1)]) := by
      simp [erL, hnlt, hnlt2]
    rw [heq]
    cases hT : erL m k ((k2, c2) :: rest) with
    | none =>
        constructor
        · refine iff_of_true (by simp) ?_
          rw [hcsflat, findEntry_append_of_none k _ hnone1]
          exact hiffT.mp hT
        · intro cs' h
          simp at h
    | some cs2 =>
        obtain ⟨hentT, htgT, hhgT, hloT, hhiT, -, htlwT,
          ⟨q0, tl0, hshape, hq0wf, hq0or⟩, -⟩ := hsomeT cs2 hT
        subst hshape
        obtain ⟨k3, c3⟩ := q0
        constructor
        · rw [hcsflat]
          refine iff_of_false (by simp) ?_
          intro hno
          rw [findEntry_append_of_none k _ hnone1] at hno
          have h5 := hiffT.mpr hno
          rw [hT] at h5
          exact Option.noConfusion h5
        · intro cs' h
          have h4 : (if (m + 1) / 2 ≤ nodeSize c3 then
                (k1, c1) :: (k3, c3) :: tl0
              else stealOrMergeL m c1 c3 ++ tl0) = cs' := by simpa using h
          by_cases hk3 : (m + 1) / 2 ≤ nodeSize c3
          · rw [if_pos hk3] at h4
            subst h4
            have hwf3min : wfB m ((m + 1) / 2) c3 = true := wfB_mono hk3 hq0wf
            refine ⟨?_, ?_, ?_, ?_, ?_, ?_, ?_, ?_, ?_⟩
            · have hL : entryListL ((k1, c1) :: (k3, c3) :: tl0) =
                  entryList c1 ++ entryListL ((k3, c3) :: tl0) := rfl
              rw [hL, hentT, hcsflat, rmEntry_append_right k _ _ hk1mem]
            · intro q hq
              rcases List.mem_cons.mp hq with rfl | hq
              · exact tagsB_mem htags _ (by simp)
              · exact htgT q hq
            · intro q hq
              rcases List.mem_cons.mp hq with rfl | hq
              · rfl
              · rw [hhgT q hq]
                exact heights_mem (q := (k2, c2)) (r := (k1, c1)) hkind
                  (by simp) (by simp)
            · simp only [List.length_cons] at hloT hhiT ⊢
              omega
            · simp only [List.length_cons] at hloT hhiT ⊢
              omega
            · simp only [List.length_cons]
              omega
            · intro q hq
              simp only [List.tail_cons] at hq
              rcases List.mem_cons.mp hq with rfl | hq
              · exact hwf3min
              · exact htlwT q (by simpa using hq)
            · exact ⟨(k1, c1), _, rfl, wfB_self hwc1, Or.inl (wfB_size hwc1)⟩
            · intro h2len q hq
              rcases List.mem_cons.mp hq with rfl | hq
              · exact hwc1
              · rcases List.mem_cons.mp hq with rfl | hq
                · exact hwf3min
                · exact htlwT q (by simpa using hq)
          · rw [if_neg hk3] at h4
            subst h4
            have hsz3 : nodeSize c3 + 1 = (m + 1) / 2 := by
              rcases hq0or with h5 | h5
              · exact absurd h5 hk3
              · exact h5.1
            have hlenEq : tl0.length = rest.length := by
              rcases hq0or with h5 | h5
              · exact absurd h5 hk3
              · have h6 := h5.2
                simp only [List.length_cons] at h6
                omega
            have hh13 : heightB c1 = heightB c3 := by
              have h5 : heightB c3 = heightBL ((k2, c2) :: rest) :=
                hhgT (k3, c3) (by simp)
              rw [h5]
              exact heights_mem (q := (k1, c1)) (r := (k2, c2)) hkind
                (by simp) (by simp)
            have hsrest : ((entryListL ((k2, c2) :: rest)).map
                Prod.fst).Chain' (· < ·) :=
              entryListL_sorted (m := m) (by omega) (wfL_tail hwl)
                (tagsB_tail htags) (sepChainB_tail hsep) (heightsB_tail hkind)
                (by simp only [List.length_cons] at hlenm ⊢; omega) (by simp)
            have hgeT := flat_keys_ge (m := m) (by omega) k2 c2 rest
              (wfL_tail hwl) (tagsB_tail htags) hsrest
            have hcross13 : ∀ x ∈ keyList c1, ∀ y ∈ keyList c3, x < y := by
              intro x hx y hy
              have hxk2 : x < k2 := by
                have hall : allLtB (keyList c1) k2 = true := by
                  simp only [sepChainB, Bool.and_eq_true] at hsep
                  exact hsep.1
                exact (allLtB_iff _ _).mp hall x hx
              have hyT : y ∈ (entryListL ((k2, c2) :: rest)).map Prod.fst := by
                have h5 : y ∈ (entryListL ((k3, c3) :: tl0)).map Prod.fst :=
                  keyList_mem_of_child (q := (k3, c3)) (by simp) hy
                rw [hentT] at h5
                exact ((rmEntry_sublist k _).map Prod.fst).subset h5
              have h6 := hgeT y hyT
              omega
            obtain ⟨hLent, hLwf, hLtags, hLheights, hLone, hLtwo⟩ :=
              stealOrMergeL_spec hm c1 c3 hwc1 hq0wf hsz3 hh13 hcross13
            cases hL : stealOrMergeL m c1 c3 with
            | nil =>
                rw [hL] at hLone
                simp at hLone
            | cons l0 L2 =>
                rw [hL] at hLent hLwf hLtags hLheights hLone hLtwo
                refine ⟨?_, ?_, ?_, ?_, ?_, ?_, ?_, ?_, ?_⟩
                · rw [entryListL_append, hLent, hcsflat,
                    rmEntry_append_right k _ _ hk1mem, ← hentT,
                    show entryListL ((k3, c3) :: tl0) =
                      entryList c3 ++ entryListL tl0 from rfl,
                    List.append_assoc]
                · intro q hq
                  rcases List.mem_append.mp hq with hq | hq
                  · exact hLtags q hq
                  · exact htgT q (List.mem_cons_of_mem _ hq)
                · intro q hq
                  rcases List.mem_append.mp hq with hq | hq
                  · rw [hLheights q hq]
                    rfl
                  · rw [hhgT q (List.mem_cons_of_mem _ hq)]
                    exact heights_mem (q := (k2, c2)) (r := (k1, c1)) hkind
                      (by simp) (by simp)
                · simp only [List.length_append, List.length_cons]
                    at hLone hLtwo hloT hhiT ⊢
                  omega
                · simp only [List.length_append, List.length_cons]
                    at hLone hLtwo hloT hhiT ⊢
                  omega
                · simp only [List.length_append, List.length_cons]
                  omega
                · intro q hq
                  simp only [List.cons_append, List.tail_cons] at hq
                  rcases List.mem_append.mp hq with hq | hq
                  · exact hLwf q (List.mem_cons_of_mem _ hq)
                  · exact htlwT q (by simpa using hq)
                · refine ⟨l0, L2 ++ tl0, by simp,
                    wfB_self (hLwf l0 (by simp)),
                    Or.inl (wfB_size (hLwf l0 (by simp)))⟩
                · intro h2len q hq
                  rcases List.mem_append.mp hq with hq | hq
                  · exact hLwf q hq
                  · exact htlwT q (by simpa using hq)

/-- §4.2 erase at the root: `NotFound` exactly when the key is absent;
otherwise the result is a well-formed root (collapsing a single-child
internal root) holding exactly the old entries minus the erased one. -/
theorem erase_spec {V : Type} {m : Nat} (hm : 3 ≤ m) (k : Nat) (t : bnode V)
    (hw : wfRoot m t = true) :
    (erase m k t = none ↔ findEntry k (entryList t) = none) ∧
    ∀ t', erase m k t = some t' →
      wfRoot m t' = true ∧ entryList t' = rmEntry k (entryList t) := by
  obtain ⟨lb, hwb, h2⟩ : ∃ lb, wfB m lb t = true ∧
      (∀ cs0, t = bnode.internal cs0 → 2 ≤ cs0.length) := by
    cases t with
    | leaf es => exact ⟨0, hw, fun cs0 h => bnode.noConfusion h⟩
    | internal cs =>
        refine ⟨2, hw, ?_⟩
        intro cs0 h
        have h3 : cs = cs0 := by injection h
        subst h3
        exact (wfB_internal_iff.mp hw).1
  obtain ⟨hiff, hsome⟩ := er_spec hm k t lb hwb h2
  have herase : erase m k t = (er m k t).map (fun t2 =>
      match t2 with
      | .internal [(_, c)] => c
      | t3 => t3) := rfl
  rw [herase]
  cases her : er m k t with
  | none =>
      constructor
      · exact iff_of_true (by simp) (hiff.mp her)
      · intro t' h
        simp at h
  | some t2 =>
      obtain ⟨hent2, hwf2, -, -, -⟩ := hsome t2 her
      constructor
      · refine iff_of_false (by simp) ?_
        intro hno
        have h5 := hiff.mpr hno
        rw [her] at h5
        exact Option.noConfusion h5
      · intro t' h
        simp only [Option.map_some', Option.some.injEq] at h
        cases t2 with
        | leaf es2 =>
            have h5 : bnode.leaf es2 = t' := h
            subst h5
            exact ⟨wfB_mono (Nat.zero_le _) hwf2, hent2⟩
        | internal cs2 =>
            obtain ⟨-, hlen2, hone2, hwl2, -, -, -⟩ := wfB_internal_iff.mp hwf2
            cases cs2 with
            | nil => simp at hone2
            | cons q1 tl =>
                cases tl with
                | nil =>
                    obtain ⟨k3, c3⟩ := q1
                    have h5 : c3 = t' := h
                    subst h5
                    have hwc3 : wfB m ((m + 1) / 2) c3 = true := wfL_head hwl2
                    refine ⟨?_, ?_⟩
                    · cases c3 with
                      | leaf es3 => exact wfB_mono (Nat.zero_le _) hwc3
                      | internal cs3 => exact wfB_mono (by omega) hwc3
                    · rw [← hent2]
                      show entryList c3 = entryListL [(k3, c3)]
                      simp [entryListL]
                | cons q2 tl2 =>
                    have h5 : bnode.internal (q1 :: q2 :: tl2) = t' := h
                    subst h5
                    refine ⟨?_, hent2⟩
                    refine wfB_mono ?_ hwf2
                    show 2 ≤ nodeSize (bnode.internal (q1 :: q2 :: tl2))
                    simp only [nodeSize, List.length_cons]
                    omega

theorem applyOp_wfRoot {V : Type} {m : Nat} (hm : 3 ≤ m) (t : bnode V)
    (o : treeOp V) (hw : wfRoot m t = true) :
    wfRoot m (applyOp m t o) = true := by
  cases o with
  | ins k v => exact (insert_spec hm k v t hw).1
  | del k =>
      obtain ⟨-, hsome⟩ := erase_spec hm k t hw
      show wfRoot m ((erase m k t).getD t) = true
      cases her : erase m k t with
      | none => simpa using hw
      | some t' => simpa using (hsome t' her).1

theorem applyOps_wfRoot {V : Type} {m : Nat} (hm : 3 ≤ m)
    (ops : List (treeOp V)) :
    wfRoot m (applyOps m ops) = true := by
  suffices h : ∀ t : bnode V, wfRoot m t = true →
      wfRoot m (ops.foldl (applyOp m) t) = true by
    exact h _ (wfRoot_empty m)
  induction ops with
  | nil =>
      intro t hw
      simpa using hw
  | cons o ops ih =>
      intro t hw
      simp only [List.foldl_cons]
      exact ih _ (applyOp_wfRoot hm t o hw)

theorem occSub_of_wfB {V : Type} {m : Nat} (t : bnode V) :
    wfB m ((m + 1) / 2) t = true → occSubB m t = true := by
  refine @occSubB.induct V m
    (fun t => wfB m ((m + 1) / 2) t = true → occSubB m t = true)
    (fun cs => wfL m cs = true → occSubL m cs = true)
    ?_ ?_ ?_ ?_ t
  · intro es hw
    obtain ⟨h1, h2, -⟩ := wfB_leaf_iff.mp hw
    simp only [occSubB, Bool.and_eq_true, decide_eq_true_eq]
    exact ⟨h1, h2⟩
  · intro cs ih hw
    obtain ⟨h1, h2, -, hwl, -, -, -⟩ := wfB_internal_iff.mp hw
    simp only [occSubB, Bool.and_eq_true, decide_eq_true_eq]
    exact ⟨⟨h1, h2⟩, ih hwl⟩
  · intro _
    rfl
  · intro k1 c rest ih1 ih2 hwl
    simp only [wfL, Bool.and_eq_true] at hwl
    simp only [occSubL, Bool.and_eq_true]
    exact ⟨ih1 hwl.1, ih2 hwl.2⟩

theorem occSubL_of_wfL {V : Type} {m : Nat} :
    ∀ cs : List (Nat × bnode V), wfL m cs = true → occSubL m cs = true
  | [], _ => rfl
  | (k1, c) :: rest, h => by
      simp only [wfL, Bool.and_eq_true] at h
      simp only [occSubL, Bool.and_eq_true]
      exact ⟨occSub_of_wfB c h.1, occSubL_of_wfL rest h.2⟩

theorem occRoot_of_wfRoot {V : Type} {m : Nat} {t : bnode V}
    (hw : wfRoot m t = true) : occRootB m t = true := by
  cases t with
  | leaf es =>
      have h2 := (wfB_leaf_iff.mp hw).2.1
      simp only [occRootB, decide_eq_true_eq]
      exact h2
  | internal cs =>
      obtain ⟨-, hlen, -, hwl, -, -, -⟩ := wfB_internal_iff.mp hw
      simp only [occRootB, Bool.and_eq_true, decide_eq_true_eq]
      exact ⟨hlen, occSubL_of_wfL cs hwl⟩

/-- C5: after any interleaving of inserts and erases starting from the empty
tree, every non-root node holds between `⌈max_entries/2⌉` and `max_entries`
entries; only the root is exempt from the minimum (it may even be empty) but
is still capped at `max_entries`. -/
theorem interleaved_ops_occupancy {V : Type} (m : Nat) (hm : 3 ≤ m)
    (ops : List (treeOp V)) :
    occRootB m (applyOps m ops) = true :=
  occRoot_of_wfRoot (applyOps_wfRoot hm ops)

theorem interleaved_ops_occupancy_witness :
    (3 : Nat) ≤ 3 ∧
      occRootB 3 (applyOps 3
        [.ins 1 (mkThing 1), .ins 2 (mkThing 2), .ins 3 (mkThing 3),
         .ins 4 (mkThing 4), .del 2, .ins 5 (mkThing 5), .del 9,
         .del 1, .del 4]) = true :=
  ⟨by decide,
    interleaved_ops_occupancy 3 (by decide)
      [.ins 1 (mkThing 1), .ins 2 (mkThing 2), .ins 3 (mkThing 3),
       .ins 4 (mkThing 4), .del 2, .ins 5 (mkThing 5), .del 9,
       .del 1, .del 4]⟩

/-- C7: inserting an absent key and then erasing it returns the erased tree
to exactly the original entries (same keys and values), and a lookup of the
key reports `NotFound`. -/
theorem insert_erase_absent {V : Type} {m : Nat} (hm : 3 ≤ m) (k : Nat)
    (v : V) (t : bnode V) (hw : wfRoot m t = true)
    (habs : k ∉ keyList t) :
    ∃ t', erase m k (insert m k v t) = some t' ∧
      lookup k t' = none ∧ entryList t' = entryList t := by
  obtain ⟨hw2, hent2⟩ := insert_spec hm k v t hw
  obtain ⟨hiff, hsome⟩ := erase_spec hm k (insert m k v t) hw2
  have hfind : findEntry k (entryList (insert m k v t)) = some v := by
    rw [hent2, findEntry_insEntry]
    simp
  cases her : erase m k (insert m k v t) with
  | none =>
      exfalso
      have h5 := hiff.mp her
      rw [hfind] at h5
      exact Option.noConfusion h5
  | some t' =>
      obtain ⟨hw', hent'⟩ := hsome t' her
      have hent3 : entryList t' = entryList t := by
        rw [hent', hent2, rmEntry_insEntry k v _ habs]
      refine ⟨t', rfl, ?_, hent3⟩
      obtain ⟨lb2, hwb2⟩ := wfRoot_wfB hw'
      rw [lookup_spec hm k t' lb2 hwb2, hent3]
      rw [findEntry_eq_none]
      exact habs

theorem insert_erase_absent_witness :
    ((3 : Nat) ≤ 3 ∧ wfRoot 3 ctree = true ∧ 3 ∉ keyList ctree) ∧
      ∃ t', erase 3 3 (insert 3 3 (mkThing 9) ctree) = some t' ∧
        lookup 3 t' = none ∧ entryList t' = entryList ctree :=
  ⟨⟨by decide, by decide, by decide⟩,
    insert_erase_absent (by decide) 3 (mkThing 9) ctree (by decide)
      (by decide)⟩

end PDBtree
